import Mathlib

/-!
Verification of the widdly tiddler-store backends.

This file gives a shallow embedding of the three TiddlerStore backends of the
widdly repository — the BoltDB backend (store/store.go together with the bolt
package), the sqlite backend (store/sqlite/sqlite.go) and the flat-file
backend — together with the Tiddler JSON projection (Tiddler.MarshalJSON),
and proves or refutes the frozen specification claims against it.

Modeling conventions:
* Go byte strings ([]byte, string) are lists of characters; UTF-8
  byte-lexicographic order coincides with code-point order, so the
  character-wise order below is faithful for valid UTF-8 data.
* encoding/json values are modeled by the inductive JVal.  JSON numbers are
  modeled as integers; fractional and exponent forms are outside the model
  (no claim under study involves them).  A Go map[string]interface value is
  a JVal.jobj whose field list is sorted by key with no duplicate keys —
  json.Marshal of a map emits its keys in sorted order, and the renderer
  below emits a jobj field list in list order.
* The BoltDB engine is modeled as two sorted key/value lists (the "tiddler"
  and "tiddler_history" buckets).  Bucket.Put with a nil value stores a
  zero-length value under the key; a committed zero-length value reads back
  from the page as a non-nil empty slice, so the model keeps the key present
  with an empty value.  Bucket.Get of an absent key is nil (modeled none).
* The sqlite backend is a list of rows in rowid (insertion) order; SELECT
  without ORDER BY scans in that order, and LIKE is modeled with its SQL
  semantics (ASCII-case-insensitive, with the wildcard characters).
* The flat-file backend is a record of directory listings (file name to
  contents); reads of paths outside the modeled directories (the backend's
  All reads the text file relative to the process working directory, a path
  it never writes) are modeled by a separate, initially empty, directory.
* I/O failures of the underlying media are not modeled; every claim under
  study concerns the failure-free executions.

Definitions come first, then the theorems.
-/

set_option maxHeartbeats 1000000

namespace Widdly

/-- Byte strings of the Go program, as lists of characters. -/
abbrev Bytes := List Char

/-- Lexicographic strict order on byte strings, as the Go runtime and the
BoltDB cursor compare keys. -/
def bytesLt : Bytes → Bytes → Bool
  | [], [] => false
  | [], _ :: _ => true
  | _ :: _, [] => false
  | a :: as, b :: bs => if a = b then bytesLt as bs else decide (a < b)

/-- Go bytes.Contains: hay contains needle as a contiguous run of bytes. -/
def bytesContains : Bytes → Bytes → Bool
  | [], needle => needle.isEmpty
  | c :: rest, needle => needle.isPrefixOf (c :: rest) || bytesContains rest needle

/-- The fixed macro tag literal tested by every backend's All:
the bytes of "$:/tags/Macro" surrounded by double quotes. -/
def macroLit : Bytes := '"' :: "$:/tags/Macro".data ++ ['"']

/-- Opening brace character of JSON text. -/
def obrace : Char := Char.ofNat 123

/-- Closing brace character of JSON text. -/
def cbrace : Char := Char.ofNat 125

/-- JSON values as Go's encoding/json produces them when unmarshaling into a
map: null, booleans, numbers (integers in this model), strings, arrays, and
objects as sorted duplicate-free field lists standing for Go maps. -/
inductive JVal : Type where
  | jnull : JVal
  | jbool : Bool → JVal
  | jnum : Int → JVal
  | jstr : Bytes → JVal
  | jarr : List JVal → JVal
  | jobj : List (Bytes × JVal) → JVal

mutual

/-- Structural boolean equality on JSON values. -/
def jvalBeq : JVal → JVal → Bool
  | .jnull, .jnull => true
  | .jbool a, .jbool b => a == b
  | .jnum a, .jnum b => a == b
  | .jstr a, .jstr b => a == b
  | .jarr a, .jarr b => jvalBeqList a b
  | .jobj a, .jobj b => jvalBeqFields a b
  | _, _ => false

/-- Structural boolean equality on lists of JSON values. -/
def jvalBeqList : List JVal → List JVal → Bool
  | [], [] => true
  | x :: xs, y :: ys => jvalBeq x y && jvalBeqList xs ys
  | _, _ => false

/-- Structural boolean equality on field lists. -/
def jvalBeqFields : List (Bytes × JVal) → List (Bytes × JVal) → Bool
  | [], [] => true
  | (k, v) :: xs, (l, w) :: ys => k == l && jvalBeq v w && jvalBeqFields xs ys
  | _, _ => false

end

/-- Decimal digits, fuel-indexed so the definition is structural (any fuel
above the number is enough; natDigits below always supplies enough). -/
def natDigitsAux : Nat → Nat → List Char
  | 0, _ => []
  | fuel + 1, n =>
    if n < 10 then [Char.ofNat (48 + n)]
    else natDigitsAux fuel (n / 10) ++ [Char.ofNat (48 + n % 10)]

/-- Decimal digits of a natural number, most significant first. -/
def natDigits (n : Nat) : List Char := natDigitsAux (n + 1) n

/-- Rendering of an integer as Go's encoding/json emits it. -/
def renderInt (n : Int) : Bytes :=
  if n < 0 then '-' :: natDigits n.natAbs else natDigits n.toNat

/-- Lower-case hexadecimal digit, as Go's JSON encoder uses. -/
def hexDigit (n : Nat) : Char :=
  if n < 10 then Char.ofNat (48 + n) else Char.ofNat (87 + n)

/-- Escaping of one character inside a JSON string, following Go's
encoding/json encoder with its default HTML escaping: quote, backslash,
newline, carriage return and tab get two-character escapes, other control
characters and the HTML-significant characters get u-escapes, and the line
and paragraph separators U+2028/U+2029 are escaped as well. -/
def escapeChar (c : Char) : List Char :=
  if c = '"' then ['\\', '"']
  else if c = '\\' then ['\\', '\\']
  else if c = '\n' then ['\\', 'n']
  else if c = '\r' then ['\\', 'r']
  else if c = '\t' then ['\\', 't']
  else if c.toNat < 32 || c = '<' || c = '>' || c = '&' then
    ['\\', 'u', '0', '0', hexDigit (c.toNat / 16), hexDigit (c.toNat % 16)]
  else if c.toNat = 8232 || c.toNat = 8233 then
    ['\\', 'u', '2', '0', '2', hexDigit (c.toNat % 16)]
  else [c]

/-- Escaping of a whole string body. -/
def escapeStr : Bytes → Bytes
  | [] => []
  | c :: rest => escapeChar c ++ escapeStr rest

/-- Rendering of a JSON string literal including its quotes. -/
def renderString (s : Bytes) : Bytes := '"' :: escapeStr s ++ ['"']

mutual

/-- Rendering of a JSON value to bytes, as Go's json.Marshal emits it
(compact, object keys in field-list order; the field lists of this model
are kept sorted, matching Go's sorted-key map output). -/
def renderJ : JVal → Bytes
  | .jnull => ['n', 'u', 'l', 'l']
  | .jbool true => ['t', 'r', 'u', 'e']
  | .jbool false => ['f', 'a', 'l', 's', 'e']
  | .jnum n => renderInt n
  | .jstr s => renderString s
  | .jarr xs => '[' :: renderElems xs ++ [']']
  | .jobj kvs => obrace :: renderFields kvs ++ [cbrace]

/-- Rendering of comma-separated array elements. -/
def renderElems : List JVal → Bytes
  | [] => []
  | [x] => renderJ x
  | x :: y :: rest => renderJ x ++ ',' :: renderElems (y :: rest)

/-- Rendering of comma-separated object fields. -/
def renderFields : List (Bytes × JVal) → Bytes
  | [] => []
  | [(k, v)] => renderString k ++ ':' :: renderJ v
  | (k, v) :: f :: rest => renderString k ++ ':' :: renderJ v ++ ',' :: renderFields (f :: rest)

end

/-- Field keys strictly ascending: the shape of a field list standing for a
Go map, whose marshaled form lists keys in sorted order. -/
def fieldsSorted : List (Bytes × JVal) → Bool
  | [] => true
  | [_] => true
  | (k, _) :: (l, w) :: rest => bytesLt k l && fieldsSorted ((l, w) :: rest)

mutual

/-- Canonical values: every object inside is a sorted duplicate-free field
list, i.e. the value is the faithful image of a Go map structure. -/
def canonV : JVal → Bool
  | .jnull => true
  | .jbool _ => true
  | .jnum _ => true
  | .jstr _ => true
  | .jarr xs => canonElems xs
  | .jobj kvs => fieldsSorted kvs && canonFields kvs

/-- Canonicity of every element of an array. -/
def canonElems : List JVal → Bool
  | [] => true
  | x :: xs => canonV x && canonElems xs

/-- Canonicity of every value of a field list. -/
def canonFields : List (Bytes × JVal) → Bool
  | [] => true
  | (_, v) :: rest => canonV v && canonFields rest

end

/-- Map update js[k] = v on the sorted field-list representation of a Go
map: insert in order, replacing an existing binding of the same key. -/
def objInsert (k : Bytes) (v : JVal) : List (Bytes × JVal) → List (Bytes × JVal)
  | [] => [(k, v)]
  | (l, w) :: rest =>
    if bytesLt k l then (k, v) :: (l, w) :: rest
    else if k = l then (k, v) :: rest
    else (l, w) :: objInsert k v rest

/-- Map lookup js[k] on the field-list representation. -/
def objLookup : List (Bytes × JVal) → Bytes → Option JVal
  | [], _ => none
  | (l, w) :: rest, k => if l = k then some w else objLookup rest k

/-- JSON insignificant whitespace. -/
def isWsChar (c : Char) : Bool := c = ' ' || c = '\t' || c = '\n' || c = '\r'

/-- Skipping of insignificant whitespace before a token. -/
def skipWs : Bytes → Bytes
  | [] => []
  | c :: rest => if isWsChar c then skipWs rest else c :: rest

/-- Decimal digit test. -/
def isDigitChar (c : Char) : Bool := 48 ≤ c.toNat && c.toNat ≤ 57

/-- Value of a decimal digit character. -/
def digitVal (c : Char) : Nat := c.toNat - 48

/-- Value of a hexadecimal digit character, either case. -/
def hexVal (c : Char) : Option Nat :=
  if 48 ≤ c.toNat && c.toNat ≤ 57 then some (c.toNat - 48)
  else if 97 ≤ c.toNat && c.toNat ≤ 102 then some (c.toNat - 87)
  else if 65 ≤ c.toNat && c.toNat ≤ 70 then some (c.toNat - 55)
  else none

/-- Maximal leading run of decimal digits. -/
def takeDigits : Bytes → (List Char × Bytes)
  | [] => ([], [])
  | c :: rest =>
    if isDigitChar c then
      let p := takeDigits rest
      (c :: p.1, p.2)
    else ([], c :: rest)

/-- Numeric value of a digit run, most significant first. -/
def digitsToNat (ds : List Char) : Nat := ds.foldl (fun acc c => acc * 10 + digitVal c) 0

/-- Parsing of a JSON natural-number literal: a nonempty digit run without a
leading zero (except the literal 0 itself), as the JSON grammar demands. -/
def parseNatNum (s : Bytes) : Option (Nat × Bytes) :=
  match takeDigits s with
  | ([], _) => none
  | (d :: ds, r) => if d = '0' && !ds.isEmpty then none else some (digitsToNat (d :: ds), r)

/-- Parsing of a JSON integer literal with optional minus sign. -/
def parseNum (s : Bytes) : Option (Int × Bytes) :=
  if s.head? = some '-' then
    match parseNatNum s.tail with
    | some (n, r) => some (-(n : Int), r)
    | none => none
  else
    match parseNatNum s with
    | some (n, r) => some ((n : Int), r)
    | none => none

/-- Single-character escapes of JSON strings. -/
def unescapeChar (c : Char) : Option Char :=
  if c = '"' then some '"'
  else if c = '\\' then some '\\'
  else if c = '/' then some '/'
  else if c = 'n' then some '\n'
  else if c = 't' then some '\t'
  else if c = 'r' then some '\r'
  else if c = 'b' then some (Char.ofNat 8)
  else if c = 'f' then some (Char.ofNat 12)
  else none

/-- Parsing of a JSON string body after the opening quote, up to and
including the closing quote; raw control characters are rejected, escapes
are decoded (a u-escape denotes the code point of its four hex digits). -/
def parseStrBody : Bytes → Option (Bytes × Bytes)
  | [] => none
  | c :: rest =>
    if c = '"' then some ([], rest)
    else if c = '\\' then
      match rest with
      | 'u' :: c1 :: c2 :: c3 :: c4 :: rest4 =>
        match hexVal c1, hexVal c2, hexVal c3, hexVal c4 with
        | some h1, some h2, some h3, some h4 =>
          match parseStrBody rest4 with
          | some (s, r) => some (Char.ofNat (((h1 * 16 + h2) * 16 + h3) * 16 + h4) :: s, r)
          | none => none
        | _, _, _, _ => none
      | e :: rest2 =>
        match unescapeChar e with
        | some ch =>
          match parseStrBody rest2 with
          | some (s, r) => some (ch :: s, r)
          | none => none
        | none => none
      | [] => none
    else if c.toNat < 32 then none
    else
      match parseStrBody rest with
      | some (s, r) => some (c :: s, r)
      | none => none

mutual

/-- Fuel-indexed recursive-descent parsing of one JSON value, mirroring the
grammar Go's encoding/json decoder accepts (integral numbers only in this
model).  Objects are assembled by objInsert in reading order, so a later
duplicate key overwrites an earlier one exactly as assignment into the Go
map does, and the result is a canonical (sorted) field list. -/
def parseV : Nat → Bytes → Option (JVal × Bytes)
  | 0, _ => none
  | fuel + 1, input =>
    match skipWs input with
    | [] => none
    | c :: rest =>
      if c = 'n' then
        match rest with
        | 'u' :: 'l' :: 'l' :: r => some (.jnull, r)
        | _ => none
      else if c = 't' then
        match rest with
        | 'r' :: 'u' :: 'e' :: r => some (.jbool true, r)
        | _ => none
      else if c = 'f' then
        match rest with
        | 'a' :: 'l' :: 's' :: 'e' :: r => some (.jbool false, r)
        | _ => none
      else if c = '"' then
        match parseStrBody rest with
        | some (s, r) => some (.jstr s, r)
        | none => none
      else if c = '[' then parseElemsFirst fuel rest
      else if c = obrace then parseFieldsFirst fuel rest
      else if c = '-' || isDigitChar c then
        match parseNum (c :: rest) with
        | some (n, r) => some (.jnum n, r)
        | none => none
      else none

/-- Parsing of the array elements after the opening bracket. -/
def parseElemsFirst : Nat → Bytes → Option (JVal × Bytes)
  | 0, _ => none
  | fuel + 1, input =>
    match skipWs input with
    | ']' :: r => some (.jarr [], r)
    | s =>
      match parseV fuel s with
      | none => none
      | some (v, rest) =>
        match parseElemsNext fuel rest with
        | none => none
        | some (vs, rest2) => some (.jarr (v :: vs), rest2)

/-- Parsing of the remaining array elements after a complete element. -/
def parseElemsNext : Nat → Bytes → Option (List JVal × Bytes)
  | 0, _ => none
  | fuel + 1, input =>
    match skipWs input with
    | ']' :: r => some ([], r)
    | ',' :: r =>
      match parseV fuel r with
      | none => none
      | some (v, rest) =>
        match parseElemsNext fuel rest with
        | none => none
        | some (vs, rest2) => some (v :: vs, rest2)
    | _ => none

/-- Parsing of one object member: string key, colon, value. -/
def parseOneField : Nat → Bytes → Option ((Bytes × JVal) × Bytes)
  | 0, _ => none
  | fuel + 1, input =>
    match skipWs input with
    | '"' :: r =>
      match parseStrBody r with
      | none => none
      | some (k, rest) =>
        match skipWs rest with
        | ':' :: rest2 =>
          match parseV fuel rest2 with
          | none => none
          | some (v, rest3) => some ((k, v), rest3)
        | _ => none
    | _ => none

/-- Parsing of the object members after the opening brace. -/
def parseFieldsFirst : Nat → Bytes → Option (JVal × Bytes)
  | 0, _ => none
  | fuel + 1, input =>
    match skipWs input with
    | [] => none
    | c :: r =>
      if c = cbrace then some (.jobj [], r)
      else
        match parseOneField fuel (c :: r) with
        | none => none
        | some ((k, v), rest) => parseFieldsNext fuel (objInsert k v []) rest

/-- Parsing of the remaining object members, accumulating the map built so
far (later bindings of a key overwrite earlier ones, as in the Go map). -/
def parseFieldsNext : Nat → List (Bytes × JVal) → Bytes → Option (JVal × Bytes)
  | 0, _, _ => none
  | fuel + 1, acc, input =>
    match skipWs input with
    | [] => none
    | c :: r =>
      if c = cbrace then some (.jobj acc, r)
      else if c = ',' then
        match parseOneField fuel r with
        | none => none
        | some ((k, v), rest) => parseFieldsNext fuel (objInsert k v acc) rest
      else none

end

/-- Go json.Unmarshal of a byte string into an interface value: one JSON
value surrounded by optional whitespace, nothing trailing. -/
def unmarshalJ (s : Bytes) : Option JVal :=
  match parseV (2 * s.length + 2) s with
  | some (v, rest) => if skipWs rest = [] then some v else none
  | none => none

/-- Error values the modeled operations surface.  errNotFound is the store
package's ErrNotFound; errNoRows is database/sql's ErrNoRows (a different
error value); fsNotExist is an os PathError for a missing file;
unmarshalErr is an encoding/json unmarshal error. -/
inductive GoErr : Type where
  | errNotFound : GoErr
  | errNoRows : GoErr
  | fsNotExist : GoErr
  | unmarshalErr : GoErr
deriving DecidableEq

/-- The Tiddler value type of store/store.go: title key, serialized JSON
meta bytes, body text, and the skinny/fat transport flag. -/
structure Tiddler where
  key : Bytes
  meta : Bytes
  text : Bytes
  withText : Bool
deriving DecidableEq

/-- Outcome of Tiddler.MarshalJSON: the projected bytes, a returned error,
or the run-time panic of assigning into a nil map. -/
inductive MarshalOut : Type where
  | ok : Bytes → MarshalOut
  | err : GoErr → MarshalOut
  | panicNilMap : MarshalOut
deriving DecidableEq

/-- Tiddler.MarshalJSON of store/store.go: a skinny tiddler's projection is
its Meta verbatim; a fat tiddler's Meta is unmarshaled into a map, the text
field is assigned, and the map is re-marshaled.  Unmarshal of the JSON
literal null succeeds leaving the map nil, and the assignment into the nil
map then panics at run time rather than returning an error. -/
def marshalJSON (t : Tiddler) : MarshalOut :=
  if !t.withText then .ok t.meta
  else
    match unmarshalJ t.meta with
    | some (.jobj js) => .ok (renderJ (.jobj (objInsert "text".data (.jstr t.text) js)))
    | some .jnull => .panicNilMap
    | some _ => .err .unmarshalErr
    | none => .err .unmarshalErr

/-- Whether a byte string is a valid JSON object (unmarshals to a map with
at least its own structure, not null and not another value kind). -/
def isJsonObj (b : Bytes) : Bool :=
  match unmarshalJ b with
  | some (.jobj _) => true
  | _ => false

/-- A BoltDB bucket: an ordered key/value map, modeled as an association
list sorted by key. -/
abbrev KV := List (Bytes × Bytes)

/-- Bucket.Get: nil (none) exactly when the key is absent.  A key written
with a zero-length (or nil) value is present and yields the empty value. -/
def kvGet : KV → Bytes → Option Bytes
  | [], _ => none
  | (k, v) :: rest, key => if k = key then some v else kvGet rest key

/-- Bucket.Put: insert or replace, keeping the bucket sorted by key.
Putting a nil value stores a zero-length value under the key. -/
def kvPut : KV → Bytes → Bytes → KV
  | [], key, v => [(key, v)]
  | (k, w) :: rest, key, v =>
    if bytesLt key k then (key, v) :: (k, w) :: rest
    else if key = k then (key, v) :: rest
    else (k, w) :: kvPut rest key v

/-- Removal of a key from a directory listing (os.Remove). -/
def kvRemove : KV → Bytes → KV
  | [], _ => []
  | (k, v) :: rest, key => if k = key then rest else (k, v) :: kvRemove rest key

/-- The two buckets of the bolt backend: "tiddler" (live records, two
entries per key) and "tiddler_history" (one entry per key and revision). -/
structure BoltState where
  tiddler : KV
  history : KV
deriving DecidableEq

/-- The store as MustOpen creates it: both buckets empty. -/
def boltFresh : BoltState := ⟨[], []⟩

/-- Live metadata entry key: title plus the "|1" discriminator. -/
def metaKey (key : Bytes) : Bytes := key ++ ['|', '1']

/-- Live text entry key: title plus the "|2" discriminator. -/
def textKey (key : Bytes) : Bytes := key ++ ['|', '2']

/-- History entry key: fmt.Sprintf("%s#%d", key, rev). -/
def histKey (key : Bytes) (rev : Int) : Bytes := key ++ '#' :: renderInt rev

/-- ASCII lower-casing of one character. -/
def asciiFold (c : Char) : Char :=
  if 65 ≤ c.toNat && c.toNat ≤ 90 then Char.ofNat (c.toNat + 32) else c

/-- Case-folded equality of byte strings (Go's EqualFold restricted to the
ASCII range, which covers the keys in play). -/
def eqFold (a b : Bytes) : Bool := a.map asciiFold == b.map asciiFold

/-- Scan of an object's fields as json.Unmarshal into struct{Revision int}
performs it: every field whose key case-folds to "revision" assigns the
field (an integer assigns its value, null leaves the previous value, any
other shape is an unmarshal error, reported as none); later fields
overwrite earlier ones; other keys are ignored. -/
def revScan : Int → List (Bytes × JVal) → Option Int
  | cur, [] => some cur
  | cur, (k, v) :: rest =>
    if eqFold k "revision".data then
      match v with
      | .jnum n => revScan n rest
      | .jnull => revScan cur rest
      | _ => none
    else revScan cur rest

/-- getLastRevision of the bolt backend: read the live metadata entry and
unmarshal it into struct{Revision int}; on success return Revision + 1,
otherwise 1.  Unmarshal of the JSON literal null succeeds as a no-op
leaving Revision 0, so that case also returns 1. -/
def getLastRevision (b : KV) (mkey : Bytes) : Int :=
  match kvGet b mkey with
  | none => 1
  | some data =>
    match unmarshalJ data with
    | some (.jobj kvs) =>
      match revScan 0 kvs with
      | some r => r + 1
      | none => 1
    | _ => 1

/-- boltStore.Get: the live metadata entry must be non-nil, else
store.ErrNotFound; the text entry is read alongside (string(nil) is empty).
The returned tiddler is fat; its Key field is never assigned. -/
def boltGet (s : BoltState) (key : Bytes) : Except GoErr Tiddler :=
  match kvGet s.tiddler (metaKey key) with
  | none => .error .errNotFound
  | some meta => .ok ⟨[], meta, (kvGet s.tiddler (textKey key)).getD [], true⟩

/-- Loop body of boltStore.All over the cursor of the "tiddler" bucket: a
zero-length metadata value is treated as deleted and the following entry is
skipped; otherwise the following entry supplies the text, included fat only
when the metadata bytes contain the macro tag literal. -/
def boltAllLoop : List (Bytes × Bytes) → List Tiddler
  | [] => []
  | [(_, meta)] =>
    if meta.isEmpty then []
    else
      [if bytesContains meta macroLit then ⟨[], meta, [], true⟩
       else (⟨[], meta, [], false⟩ : Tiddler)]
  | (_, meta) :: next :: rest =>
    if meta.isEmpty then boltAllLoop rest
    else
      (if bytesContains meta macroLit then ⟨[], meta, next.2, true⟩
       else (⟨[], meta, [], false⟩ : Tiddler)) :: boltAllLoop rest

/-- boltStore.All: cursor scan of the live bucket. -/
def boltAll (s : BoltState) : List Tiddler := boltAllLoop s.tiddler

/-- Outcome of a bolt Put: revision and new state, a returned error, or
the nil-map panic (the transaction rolls back, leaving the state as it
was). -/
inductive BoltPutOut : Type where
  | ok : Int → BoltState → BoltPutOut
  | err : GoErr → BoltState → BoltPutOut
  | panicNilMap : BoltState → BoltPutOut
deriving DecidableEq

/-- boltStore.Put: unmarshal Meta into a map (errors surface before any
write; the null case panics inside the transaction on js["revision"] = rev
and the transaction rolls back); compute the next revision from the live
metadata entry; store the metadata with the revision embedded and the text;
store the merged meta+text snapshot in the history bucket. -/
def boltPut (s : BoltState) (t : Tiddler) : BoltPutOut :=
  match unmarshalJ t.meta with
  | none => .err .unmarshalErr s
  | some .jnull => .panicNilMap s
  | some (.jobj js) =>
    let rev := getLastRevision s.tiddler (metaKey t.key)
    let js2 := objInsert "revision".data (.jnum rev) js
    let b2 := kvPut s.tiddler (metaKey t.key) (renderJ (.jobj js2))
    let b3 := kvPut b2 (textKey t.key) t.text
    let js3 := objInsert "text".data (.jstr t.text) js2
    .ok rev ⟨b3, kvPut s.history (histKey t.key rev) (renderJ (.jobj js3))⟩
  | some _ => .err .unmarshalErr s

/-- boltStore.Delete: compute the next revision the same way Put does,
overwrite both live entries with nil (stored as zero-length values), and
write a nil tombstone into the history bucket.  It never fails, whether or
not the key has a live record. -/
def boltDelete (s : BoltState) (key : Bytes) : Except GoErr Unit × BoltState :=
  let rev := getLastRevision s.tiddler (metaKey key)
  let b2 := kvPut s.tiddler (metaKey key) []
  let b3 := kvPut b2 (textKey key) []
  (.ok (), ⟨b3, kvPut s.history (histKey key rev) []⟩)

/-- Iterated bolt Put of the same tiddler, collecting returned revisions. -/
def boltPutN : BoltState → Tiddler → Nat → List Int × BoltState
  | s, _, 0 => ([], s)
  | s, t, n + 1 =>
    match boltPut s t with
    | .ok rev s2 =>
      let p := boltPutN s2 t n
      (rev :: p.1, p.2)
    | _ => ([], s)

/-- One row of the sqlite backend's single table (the autoincrement id is
the list position; rows are kept in insertion order, the order a SELECT
without ORDER BY scans them). -/
structure SqlRow where
  meta : Bytes
  content : Bytes
  revision : Int
deriving DecidableEq

/-- The sqlite backend's table. -/
abbrev SqlState := List SqlRow

/-- Character comparison of SQL LIKE: ASCII-case-insensitive. -/
def likeEqChar (p t : Char) : Bool := asciiFold p = asciiFold t

/-- SQL LIKE match, fuel-indexed so the definition is structural; every
recursive call shortens pattern plus text, so the fuel likeMatch supplies
never runs out. -/
def likeMatchAux : Nat → Bytes → Bytes → Bool
  | 0, _, _ => false
  | fuel + 1, pattern, text =>
    match pattern, text with
    | [], [] => true
    | [], _ :: _ => false
    | '%' :: ps, t =>
      likeMatchAux fuel ps t ||
        (match t with
          | [] => false
          | _ :: ts => likeMatchAux fuel ('%' :: ps) ts)
    | '_' :: ps, _ :: ts => likeMatchAux fuel ps ts
    | _ :: _, [] => false
    | p :: ps, t :: ts => likeEqChar p t && likeMatchAux fuel ps ts

/-- SQL LIKE match of a whole text against a pattern with the percent
(any run) and underscore (any one character) wildcards. -/
def likeMatch (pattern text : Bytes) : Bool :=
  likeMatchAux (pattern.length + text.length + 1) pattern text

/-- sqliteStore.Get: the first row whose meta matches LIKE %key% (a
substring match); no row yields database/sql's ErrNoRows, which is returned
as-is — not the store package's ErrNotFound. -/
def sqliteGet (s : SqlState) (key : Bytes) : Except GoErr Tiddler :=
  match s.find? (fun r => likeMatch ('%' :: key ++ ['%']) r.meta) with
  | none => .error .errNoRows
  | some r => .ok ⟨[], r.meta, r.content, true⟩

/-- sqliteStore.All: every row of the table, fat exactly when the row's
meta bytes contain the macro tag literal. -/
def sqliteAll (s : SqlState) : List Tiddler :=
  s.map fun r =>
    if bytesContains r.meta macroLit then ⟨[], r.meta, r.content, true⟩
    else ⟨[], r.meta, [], false⟩

/-- getLastRevision of the sqlite backend, as written in the source: the
pattern is the bare key (LIKE without wildcards, so effectively equality
against the serialized meta), and the success check is inverted — a row
found returns 1, no row returns the scan variable's zero value 0. -/
def sqliteGetLastRevision (s : SqlState) (mkey : Bytes) : Int :=
  match s.find? (fun r => likeMatch mkey r.meta) with
  | some _ => 1
  | none => 0

/-- Whether json.Unmarshal of these bytes into a map succeeds: a JSON
object, or the JSON literal null (which leaves the map nil). -/
def metaUnmarshalOk (b : Bytes) : Bool :=
  match unmarshalJ b with
  | some (.jobj _) => true
  | some .jnull => true
  | _ => false

/-- Outcome of a sqlite or flat-file Put. -/
inductive PutOut2 : Type where
  | ok : Int → PutOut2
  | err : GoErr → PutOut2
deriving DecidableEq

/-- sqliteStore.Put: unmarshal Meta into a map (the map is never used
afterwards, so the null case proceeds like an object); compute the revision
with the inverted lookup; always INSERT a new row carrying Meta verbatim,
the text, and the revision column. -/
def sqlitePut (s : SqlState) (t : Tiddler) : PutOut2 × SqlState :=
  if metaUnmarshalOk t.meta then
    let rev := sqliteGetLastRevision s t.key
    (.ok rev, s ++ [⟨t.meta, t.text, rev⟩])
  else (.err .unmarshalErr, s)

/-- sqliteStore.Delete: DELETE FROM tiddler WHERE meta LIKE key — the
pattern is the bare key, so only rows whose whole meta equals the key
(case-insensitively) are removed; it reports success regardless of how many
rows matched. -/
def sqliteDelete (s : SqlState) (key : Bytes) : Except GoErr Unit × SqlState :=
  (.ok (), s.filter fun r => !likeMatch key r.meta)

/-- Iterated sqlite Put of the same tiddler, collecting revisions. -/
def sqlitePutN : SqlState → Tiddler → Nat → List Int × SqlState
  | s, _, 0 => ([], s)
  | s, t, n + 1 =>
    match sqlitePut s t with
    | (.ok rev, s2) =>
      let p := sqlitePutN s2 t n
      (rev :: p.1, p.2)
    | _ => ([], s)

/-- The flat-file backend: the tiddlers directory, the tiddlerHistory
directory, and the process working directory (which the store never writes,
but which its All consults for text files through an unjoined path). -/
structure FlatState where
  tiddlers : KV
  history : KV
  cwd : KV
deriving DecidableEq

/-- The store as MustOpen creates it: empty directories. -/
def flatFresh : FlatState := ⟨[], [], []⟩

/-- File name key.tid. -/
def tidName (key : Bytes) : Bytes := key ++ ".tid".data

/-- File name key.meta. -/
def metaName (key : Bytes) : Bytes := key ++ ".meta".data

/-- flatFileStore.Get: ErrNotFound when key.tid is absent; otherwise both
files are read (a missing key.meta surfaces as a file-system read error). -/
def flatGet (s : FlatState) (key : Bytes) : Except GoErr Tiddler :=
  match kvGet s.tiddlers (tidName key) with
  | none => .error .errNotFound
  | some tid =>
    match kvGet s.tiddlers (metaName key) with
    | none => .error .fsNotExist
    | some meta => .ok ⟨[], meta, tid, true⟩

/-- Match of the unanchored Go regular expression ".meta" at the head of a
file name: any character other than newline followed by the letters meta. -/
def dotMetaAt (f : Bytes) : Bool :=
  match f with
  | [] => false
  | c :: rest => c ≠ '\n' && "meta".data.isPrefixOf rest

/-- checkExt's test: the unanchored regular expression ".meta" matches the
file name somewhere. -/
def hasDotMeta : Bytes → Bool
  | [] => false
  | c :: rest => dotMetaAt (c :: rest) || hasDotMeta rest

/-- File name with the extension of filepath.Ext (the suffix from the last
dot) removed; a name without a dot is returned whole. -/
def baseNoExt : Bytes → Bytes
  | [] => []
  | c :: rest =>
    if rest.any (fun d => d = '.') then c :: baseNoExt rest
    else if c = '.' then []
    else c :: baseNoExt rest

/-- flatFileStore.All: the files of the tiddlers directory matching the
".meta" pattern; a macro-tagged one is marked fat and its text is read from
base + ".tid" — a path missing the directory join, resolved against the
process working directory, where the store never writes. -/
def flatAll (s : FlatState) : List Tiddler :=
  ((s.tiddlers.map Prod.fst).filter hasDotMeta).map fun f =>
    let meta := (kvGet s.tiddlers f).getD []
    if bytesContains meta macroLit then
      ⟨[], meta, (kvGet s.cwd (baseNoExt f ++ ".tid".data)).getD [], true⟩
    else ⟨[], meta, [], false⟩

/-- Match of the unanchored pattern key#digits at the head of a file name
(the source builds the regular expression by splicing the key in verbatim;
the model covers keys without regular-expression metacharacters). -/
def histMatchAt (key f : Bytes) : Bool :=
  key.isPrefixOf f &&
    (match f.drop key.length with
      | '#' :: d :: _ => isDigitChar d
      | _ => false)

/-- Unanchored match of key#digits anywhere in the file name. -/
def matchesHist (key : Bytes) : Bytes → Bool
  | [] => histMatchAt key []
  | c :: rest => histMatchAt key (c :: rest) || matchesHist key rest

/-- strconv.Atoi with the error ignored, as the source ignores it: a
non-numeric string leaves 0. -/
def atoi (s : Bytes) : Int :=
  match s with
  | '-' :: rest => if rest ≠ [] && rest.all isDigitChar then -(digitsToNat rest : Int) else 0
  | '+' :: rest => if rest ≠ [] && rest.all isDigitChar then (digitsToNat rest : Int) else 0
  | _ => if s ≠ [] && s.all isDigitChar then (digitsToNat s : Int) else 0

/-- Revision number parsed from a history file name: the part between the
first and second hash sign, through Atoi. -/
def histRevOf (f : Bytes) : Int := atoi (((f.splitOn '#').get? 1).getD [])

/-- getLastRevision of the flat-file backend: the highest revision among
history files matching the unanchored key#digits pattern, plus one. -/
def flatGetLastRevision (s : FlatState) (key : Bytes) : Int :=
  ((s.history.map Prod.fst).filter (matchesHist key)).foldl
    (fun acc f => if histRevOf f > acc then histRevOf f else acc) 0 + 1

/-- flatFileStore.Put: unmarshal Meta (errors surface before any write; the
null case proceeds, json.Marshal of the nil map emitting null); compute the
next revision by scanning the history directory; write key.tid with the
text, key.meta with Meta verbatim, and the history snapshot file. -/
def flatPut (s : FlatState) (t : Tiddler) : PutOut2 × FlatState :=
  match unmarshalJ t.meta with
  | some (.jobj js) =>
    let rev := flatGetLastRevision s t.key
    (.ok rev,
      ⟨kvPut (kvPut s.tiddlers (tidName t.key) t.text) (metaName t.key) t.meta,
        kvPut s.history (histKey t.key rev) (renderJ (.jobj js)), s.cwd⟩)
  | some .jnull =>
    let rev := flatGetLastRevision s t.key
    (.ok rev,
      ⟨kvPut (kvPut s.tiddlers (tidName t.key) t.text) (metaName t.key) t.meta,
        kvPut s.history (histKey t.key rev) (renderJ .jnull), s.cwd⟩)
  | some _ => (.err .unmarshalErr, s)
  | none => (.err .unmarshalErr, s)

/-- flatFileStore.Delete: remove key.tid then key.meta; a missing file
fails with the file-system error (not the store's ErrNotFound), and no
history tombstone is written. -/
def flatDelete (s : FlatState) (key : Bytes) : Except GoErr Unit × FlatState :=
  match kvGet s.tiddlers (tidName key) with
  | none => (.error .fsNotExist, s)
  | some _ =>
    let s1 : FlatState := ⟨kvRemove s.tiddlers (tidName key), s.history, s.cwd⟩
    match kvGet s1.tiddlers (metaName key) with
    | none => (.error .fsNotExist, s1)
    | some _ => (.ok (), ⟨kvRemove s1.tiddlers (metaName key), s1.history, s1.cwd⟩)

/-- Revision and state of a bolt Put, with 0 standing in for the failure
outcomes (the accompanying theorems additionally pin down the exact
constructor). -/
def boltPutRes (s : BoltState) (t : Tiddler) : Int × BoltState :=
  match boltPut s t with
  | .ok rev s2 => (rev, s2)
  | .err _ s2 => (0, s2)
  | .panicNilMap s2 => (0, s2)

/-- Whether a MarshalJSON outcome is a returned error (a panic is not). -/
def marshalIsErr : MarshalOut → Bool
  | .err _ => true
  | _ => false

/-- Head of the remaining input is not a decimal digit (or the input is
exhausted): the shape of every continuation a JSON number can be followed
by in well-formed surrounding text. -/
def noDigitHead : Bytes → Bool
  | [] => true
  | c :: _ => !isDigitChar c

mutual

/-- Fuel units sufficient to parse the rendering of a value. -/
def jsizeV : JVal → Nat
  | .jnull => 1
  | .jbool _ => 1
  | .jnum _ => 1
  | .jstr _ => 1
  | .jarr xs => 1 + jsizeElems xs
  | .jobj kvs => 1 + jsizeFields kvs

/-- Fuel units sufficient for an element list including its bracket. -/
def jsizeElems : List JVal → Nat
  | [] => 1
  | x :: xs => 1 + jsizeV x + jsizeElems xs

/-- Fuel units sufficient for a field list including its brace. -/
def jsizeFields : List (Bytes × JVal) → Nat
  | [] => 1
  | (_, v) :: rest => 2 + jsizeV v + jsizeFields rest

end

/-- Rendering of the elements after the first one, each preceded by its
comma. -/
def renderElemsSep : List JVal → Bytes
  | [] => []
  | x :: xs => ',' :: renderJ x ++ renderElemsSep xs

/-- Rendering of the fields after the first one, each preceded by its
comma. -/
def renderFieldsSep : List (Bytes × JVal) → Bytes
  | [] => []
  | (k, v) :: rest => ',' :: renderString k ++ ':' :: renderJ v ++ renderFieldsSep rest

/-- Concrete fixtures for the witnesses and counterexamples below. -/
def keyA : Bytes := "A".data

/-- Meta bytes of the fixture tiddler titled A. -/
def metaA : Bytes := "\x7b\"title\":\"A\"\x7d".data

/-- Fixture: tiddler A with text x. -/
def tdA : Tiddler := ⟨keyA, metaA, "x".data, false⟩

/-- Fixture: tiddler A rewritten with text y. -/
def tdAy : Tiddler := ⟨keyA, metaA, "y".data, false⟩

/-- Fixture: tiddler titled hello. -/
def tdHello : Tiddler := ⟨"hello".data, "\x7b\"title\":\"hello\"\x7d".data, "h".data, false⟩

/-- Fixture: fat tiddler whose Meta is the JSON literal null. -/
def tdNullFat : Tiddler := ⟨keyA, "null".data, "x".data, true⟩

/-- Fixture: skinny-flagged tiddler whose Meta is the JSON literal null. -/
def tdNullSkinny : Tiddler := ⟨keyA, "null".data, "x".data, false⟩

/-- Fixture: tiddler whose Meta bytes contain the macro tag literal. -/
def tdMacro : Tiddler := ⟨"M".data, "\x7b\"tags\":[\"$:/tags/Macro\"],\"title\":\"M\"\x7d".data, "mx".data, false⟩

/-- Fixture: tiddler whose Meta is the JSON number 7 (valid JSON, not an
object and not null). -/
def tdNum : Tiddler := ⟨keyA, "7".data, "x".data, false⟩

/-- Snapshot bytes the bolt history holds for tiddler A at revision 1 with
text x. -/
def snapA1x : Bytes := "\x7b\"revision\":1,\"text\":\"x\",\"title\":\"A\"\x7d".data

/-- Snapshot bytes the bolt history holds for tiddler A at revision 1 with
text y. -/
def snapA1y : Bytes := "\x7b\"revision\":1,\"text\":\"y\",\"title\":\"A\"\x7d".data

/-- Decidable equality of Except results. -/
instance {ε α : Type} [DecidableEq ε] [DecidableEq α] : DecidableEq (Except ε α) := fun a b =>
  match a, b with
  | .ok x, .ok y =>
    if h : x = y then .isTrue (by rw [h]) else .isFalse fun he => h (Except.ok.inj he)
  | .error x, .error y =>
    if h : x = y then .isTrue (by rw [h]) else .isFalse fun he => h (Except.error.inj he)
  | .ok _, .error _ => .isFalse fun he => Except.noConfusion he
  | .error _, .ok _ => .isFalse fun he => Except.noConfusion he

/-! ### Order lemmas for byte strings -/

theorem bytesLt_irrefl : ∀ a : Bytes, bytesLt a a = false
  | [] => rfl
  | c :: rest => by simp [bytesLt, bytesLt_irrefl rest]

theorem bytesLt_trans : ∀ {a b c : Bytes}, bytesLt a b = true → bytesLt b c = true →
    bytesLt a c = true
  | [], [], _, h1, _ => by simp [bytesLt] at h1
  | [], _ :: _, [], _, h2 => by simp [bytesLt] at h2
  | [], _ :: _, _ :: _, _, _ => by simp [bytesLt]
  | _ :: _, [], _, h1, _ => by simp [bytesLt] at h1
  | _ :: _, _ :: _, [], _, h2 => by simp [bytesLt] at h2
  | a :: as, b :: bs, c :: cs, h1, h2 => by
    simp only [bytesLt] at h1 h2 ⊢
    by_cases hab : a = b
    · subst hab
      by_cases hbc : a = c
      · subst hbc
        simp only [if_pos rfl] at h1 h2 ⊢
        exact bytesLt_trans h1 h2
      · simpa [hbc] using h2
    · by_cases hbc : b = c
      · subst hbc
        simpa [hab] using h1
      · simp only [if_neg hab, decide_eq_true_eq] at h1
        simp only [if_neg hbc, decide_eq_true_eq] at h2
        have hac : a < c := lt_trans h1 h2
        have : a ≠ c := ne_of_lt hac
        simp [this, hac]

theorem bytesLt_asymm {a b : Bytes} (h : bytesLt a b = true) : bytesLt b a = false := by
  cases hx : bytesLt b a with
  | false => rfl
  | true => have := bytesLt_trans h hx; rw [bytesLt_irrefl a] at this; exact absurd this (by simp)

theorem bytesLt_ne {a b : Bytes} (h : bytesLt a b = true) : a ≠ b := by
  intro he; subst he; rw [bytesLt_irrefl a] at h; exact absurd h (by simp)

theorem bytesLt_total : ∀ {a b : Bytes}, bytesLt a b = false → a ≠ b → bytesLt b a = true
  | [], [], _, hne => absurd rfl hne
  | [], _ :: _, h, _ => by simp [bytesLt] at h
  | _ :: _, [], _, _ => by simp [bytesLt]
  | a :: as, b :: bs, h, hne => by
    simp only [bytesLt] at h ⊢
    by_cases hab : a = b
    · subst hab
      have hne2 : as ≠ bs := by intro he; exact hne (by rw [he])
      simp only [if_pos rfl] at h ⊢
      exact bytesLt_total h hne2
    · simp only [if_neg hab, decide_eq_false_iff_not] at h
      have hba : b ≠ a := fun he => hab he.symm
      rcases lt_trichotomy a b with hlt | heq | hgt
      · exact absurd hlt h
      · exact absurd heq hab
      · simp [hba, hgt]

/-! ### Sorted field lists and objInsert -/

theorem fieldsSorted_tail {p : Bytes × JVal} {kvs : List (Bytes × JVal)}
    (h : fieldsSorted (p :: kvs) = true) : fieldsSorted kvs = true := by
  cases kvs with
  | nil => rfl
  | cons q rest =>
    rcases p with ⟨k, v⟩; rcases q with ⟨l, w⟩
    simp only [fieldsSorted, Bool.and_eq_true] at h
    exact h.2

theorem fieldsSorted_head_lt {p q : Bytes × JVal} {kvs : List (Bytes × JVal)}
    (h : fieldsSorted (p :: q :: kvs) = true) : bytesLt p.1 q.1 = true := by
  rcases p with ⟨k, v⟩; rcases q with ⟨l, w⟩
  simp only [fieldsSorted, Bool.and_eq_true] at h
  exact h.1

theorem fieldsSorted_lt_all : ∀ {p : Bytes × JVal} {kvs : List (Bytes × JVal)},
    fieldsSorted (p :: kvs) = true → ∀ q ∈ kvs, bytesLt p.1 q.1 = true := by
  intro p kvs
  induction kvs generalizing p with
  | nil => intro _ q hq; cases hq
  | cons r rest ih =>
    intro h q hq
    have hpr : bytesLt p.1 r.1 = true := fieldsSorted_head_lt h
    rcases List.mem_cons.mp hq with hq | hq
    · rw [hq]; exact hpr
    · exact bytesLt_trans hpr (ih (fieldsSorted_tail h) q hq)

theorem fieldsSorted_mid : ∀ {acc : List (Bytes × JVal)} {k : Bytes} {v : JVal}
    {kvs : List (Bytes × JVal)}, fieldsSorted (acc ++ (k, v) :: kvs) = true →
    ∀ p ∈ acc, bytesLt p.1 k = true := by
  intro acc
  induction acc with
  | nil => intro k v kvs _ p hp; cases hp
  | cons a acc' ih =>
    intro k v kvs h p hp
    rcases List.mem_cons.mp hp with hp | hp
    · subst hp
      have hmem : (k, v) ∈ acc' ++ (k, v) :: kvs := by simp
      exact @fieldsSorted_lt_all p _ (by simpa using h) (k, v) hmem
    · exact ih (fieldsSorted_tail (by simpa using h)) p hp

theorem objInsert_append : ∀ {acc : List (Bytes × JVal)} {k : Bytes} {v : JVal},
    (∀ p ∈ acc, bytesLt p.1 k = true) → objInsert k v acc = acc ++ [(k, v)]
  | [], _, _, _ => rfl
  | (l, w) :: acc', k, v, h => by
    have hlk : bytesLt l k = true := h (l, w) (by simp)
    have h1 : bytesLt k l = false := bytesLt_asymm hlk
    have h2 : k ≠ l := fun he => bytesLt_ne hlk he.symm
    simp only [objInsert, h1, if_neg h2, Bool.false_eq_true, if_false, List.cons_append,
      List.cons.injEq, true_and]
    exact objInsert_append fun p hp => h p (by simp [hp])

theorem fieldsSorted_cons₂ (p q : Bytes × JVal) (kvs : List (Bytes × JVal))
    (h1 : bytesLt p.1 q.1 = true) (h2 : fieldsSorted (q :: kvs) = true) :
    fieldsSorted (p :: q :: kvs) = true := by
  rcases p with ⟨a, b⟩; rcases q with ⟨c, d⟩
  show (bytesLt a c && fieldsSorted ((c, d) :: kvs)) = true
  rw [h1, h2]; rfl

theorem fieldsSorted_cons_head (p : Bytes × JVal) (l : List (Bytes × JVal))
    (hl : fieldsSorted l = true) (hh : ∀ q, l.head? = some q → bytesLt p.1 q.1 = true) :
    fieldsSorted (p :: l) = true := by
  cases l with
  | nil => rcases p with ⟨a, b⟩; rfl
  | cons q rest => exact fieldsSorted_cons₂ p q rest (hh q rfl) hl

theorem objInsert_head? : ∀ (kvs : List (Bytes × JVal)) (k : Bytes) (v : JVal),
    (objInsert k v kvs).head? = some (k, v) ∨ (objInsert k v kvs).head? = kvs.head?
  | [], k, v => Or.inl rfl
  | (l, w) :: rest, k, v => by
    by_cases hkl : bytesLt k l = true
    · left; simp [objInsert, hkl]
    · by_cases hke : k = l
      · left; simp [objInsert, hkl, hke, bytesLt_irrefl]
      · right; simp [objInsert, hkl, hke]

theorem fieldsSorted_objInsert : ∀ {kvs : List (Bytes × JVal)} (k : Bytes) (v : JVal),
    fieldsSorted kvs = true → fieldsSorted (objInsert k v kvs) = true
  | [], k, v, _ => rfl
  | (l, w) :: rest, k, v, h => by
    by_cases hkl : bytesLt k l = true
    · simp only [objInsert, hkl, if_true]
      exact fieldsSorted_cons₂ (k, v) (l, w) rest hkl h
    · by_cases hke : k = l
      · subst hke
        simp only [objInsert, hkl, Bool.false_eq_true, if_false, if_pos rfl]
        cases rest with
        | nil => rfl
        | cons q rest' =>
          exact fieldsSorted_cons₂ (k, v) q rest' (fieldsSorted_head_lt h) (fieldsSorted_tail h)
      · have hlk : bytesLt l k = true := bytesLt_total (by simpa using hkl) hke
        simp only [objInsert, hkl, Bool.false_eq_true, if_false, if_neg hke]
        have ih := @fieldsSorted_objInsert rest k v (fieldsSorted_tail h)
        apply fieldsSorted_cons_head (l, w) _ ih
        intro q hq
        rcases objInsert_head? rest k v with hc | hc
        · rw [hc] at hq
          cases hq
          exact hlk
        · rw [hc] at hq
          cases rest with
          | nil => cases hq
          | cons r rest' =>
            cases hq
            exact fieldsSorted_head_lt h

theorem canonFields_objInsert : ∀ {kvs : List (Bytes × JVal)} (k : Bytes) (v : JVal),
    canonFields kvs = true → canonV v = true → canonFields (objInsert k v kvs) = true
  | [], k, v, _, hv => by simp [objInsert, canonFields, hv]
  | (l, w) :: rest, k, v, h, hv => by
    simp only [canonFields, Bool.and_eq_true] at h
    by_cases hkl : bytesLt k l = true
    · simp [objInsert, hkl, canonFields, hv, h.1, h.2]
    · by_cases hke : k = l
      · subst hke
        simp [objInsert, hkl, canonFields, hv, h.2]
      · simp only [objInsert, hkl, Bool.false_eq_true, if_false, if_neg hke]
        simp [canonFields, h.1, canonFields_objInsert k v h.2 hv]

theorem objLookup_objInsert_self : ∀ (kvs : List (Bytes × JVal)) (k : Bytes) (v : JVal),
    objLookup (objInsert k v kvs) k = some v
  | [], k, v => by simp [objInsert, objLookup]
  | (l, w) :: rest, k, v => by
    by_cases hkl : bytesLt k l = true
    · simp [objInsert, hkl, objLookup]
    · by_cases hke : k = l
      · subst hke; simp [objInsert, hkl, objLookup]
      · have : l ≠ k := fun he => hke he.symm
        simp [objInsert, hkl, hke, objLookup, this, objLookup_objInsert_self rest k v]

theorem objLookup_objInsert_ne : ∀ (kvs : List (Bytes × JVal)) {k k2 : Bytes} (v : JVal),
    k ≠ k2 → objLookup (objInsert k v kvs) k2 = objLookup kvs k2
  | [], k, k2, v, h => by simp [objInsert, objLookup, h]
  | (l, w) :: rest, k, k2, v, h => by
    by_cases hkl : bytesLt k l = true
    · simp [objInsert, hkl, objLookup, h]
    · by_cases hke : k = l
      · subst hke
        simp [objInsert, hkl, objLookup, h]
      · simp only [objInsert, hkl, Bool.false_eq_true, if_false, if_neg hke, objLookup]
        by_cases hl2 : l = k2
        · simp [hl2]
        · simp [hl2, objLookup_objInsert_ne rest v h]

/-! ### Bucket lemmas -/

theorem kvGet_kvPut_self : ∀ (m : KV) (k v : Bytes), kvGet (kvPut m k v) k = some v
  | [], k, v => by simp [kvPut, kvGet]
  | (l, w) :: rest, k, v => by
    by_cases hkl : bytesLt k l = true
    · simp [kvPut, hkl, kvGet]
    · by_cases hke : k = l
      · subst hke; simp [kvPut, hkl, kvGet]
      · have : l ≠ k := fun he => hke he.symm
        simp [kvPut, hkl, hke, kvGet, this, kvGet_kvPut_self rest k v]

theorem kvGet_kvPut_ne : ∀ (m : KV) {k k2 : Bytes} (v : Bytes),
    k ≠ k2 → kvGet (kvPut m k v) k2 = kvGet m k2
  | [], k, k2, v, h => by simp [kvPut, kvGet, h]
  | (l, w) :: rest, k, k2, v, h => by
    by_cases hkl : bytesLt k l = true
    · simp [kvPut, hkl, kvGet, h]
    · by_cases hke : k = l
      · subst hke
        simp [kvPut, hkl, kvGet, h]
      · simp only [kvPut, hkl, Bool.false_eq_true, if_false, if_neg hke, kvGet]
        by_cases hl2 : l = k2
        · simp [hl2]
        · simp [hl2, kvGet_kvPut_ne rest v h]

theorem metaKey_ne_textKey (k : Bytes) : metaKey k ≠ textKey k := by
  simp [metaKey, textKey]

/-! ### Decimal digit lemmas -/

theorem char_digit_toNat (d : Nat) (h : d < 10) : (Char.ofNat (48 + d)).toNat = 48 + d := by
  interval_cases d <;> decide

theorem natDigitsAux_fuel : ∀ (fuel1 fuel2 n : Nat), n < fuel1 → n < fuel2 →
    natDigitsAux fuel1 n = natDigitsAux fuel2 n
  | 0, _, n, h1, _ => absurd h1 (by omega)
  | _ + 1, 0, n, _, h2 => absurd h2 (by omega)
  | fuel1 + 1, fuel2 + 1, n, h1, h2 => by
    rw [natDigitsAux, natDigitsAux]
    by_cases h : n < 10
    · simp [h]
    · simp only [h, if_false]
      congr 1
      exact natDigitsAux_fuel fuel1 fuel2 (n / 10) (by omega) (by omega)

theorem natDigits_eq (n : Nat) : natDigits n =
    if n < 10 then [Char.ofNat (48 + n)]
    else natDigits (n / 10) ++ [Char.ofNat (48 + n % 10)] := by
  show natDigitsAux (n + 1) n = _
  rw [natDigitsAux]
  by_cases h : n < 10
  · simp [h]
  · simp only [h, if_false]
    congr 1
    exact natDigitsAux_fuel n (n / 10 + 1) (n / 10) (by omega) (by omega)

theorem natDigits_ne_nil (n : Nat) : natDigits n ≠ [] := by
  rw [natDigits_eq]
  split <;> simp

theorem natDigits_all_digit : ∀ n : Nat, (natDigits n).all isDigitChar = true
  | n => by
    rw [natDigits_eq]
    split
    · rename_i h
      simp only [List.all_cons, List.all_nil, Bool.and_true, isDigitChar,
        char_digit_toNat n h, Bool.and_eq_true, decide_eq_true_eq]
      omega
    · rename_i h
      rw [List.all_append]
      have ih := natDigits_all_digit (n / 10)
      simp only [ih, List.all_cons, List.all_nil, Bool.and_true, Bool.true_and, isDigitChar,
        char_digit_toNat (n % 10) (by omega), Bool.and_eq_true, decide_eq_true_eq]
      omega
  termination_by n => n
  decreasing_by exact Nat.div_lt_self (by omega) (by omega)

theorem digitsToNat_append_one (ds : List Char) (c : Char) :
    digitsToNat (ds ++ [c]) = digitsToNat ds * 10 + digitVal c := by
  simp [digitsToNat, List.foldl_append]

theorem digitsToNat_natDigits : ∀ n : Nat, digitsToNat (natDigits n) = n
  | n => by
    rw [natDigits_eq]
    split
    · rename_i h
      simp [digitsToNat, digitVal, char_digit_toNat n h]
    · rename_i h
      rw [digitsToNat_append_one, digitsToNat_natDigits (n / 10)]
      simp only [digitVal, char_digit_toNat (n % 10) (by omega)]
      omega
  termination_by n => n
  decreasing_by exact Nat.div_lt_self (by omega) (by omega)

theorem natDigits_not_leading_zero : ∀ n : Nat, 1 ≤ n → ∀ cs, natDigits n ≠ '0' :: cs
  | n, h1, cs => by
    rw [natDigits_eq]
    split
    · rename_i h
      intro heq
      have h2 : Char.ofNat (48 + n) = '0' := (List.cons.injEq _ _ _ _ ▸ heq).1
      have h3 := char_digit_toNat n h
      rw [h2] at h3
      simp only [show ('0' : Char).toNat = 48 from rfl] at h3
      omega
    · rename_i h
      intro heq
      cases hnd : natDigits (n / 10) with
      | nil => exact natDigits_ne_nil _ hnd
      | cons a as =>
        rw [hnd, List.cons_append] at heq
        have ha : a = '0' := (List.cons.injEq _ _ _ _ ▸ heq).1
        exact natDigits_not_leading_zero (n / 10) (by omega) as (ha ▸ hnd)
  termination_by n => n
  decreasing_by exact Nat.div_lt_self (by omega) (by omega)

theorem takeDigits_append : ∀ (ds rest : Bytes), ds.all isDigitChar = true →
    noDigitHead rest = true → takeDigits (ds ++ rest) = (ds, rest)
  | [], rest, _, hrest => by
    cases rest with
    | nil => rfl
    | cons c r =>
      simp only [noDigitHead, Bool.not_eq_true'] at hrest
      simp [takeDigits, hrest]
  | d :: ds', rest, hds, hrest => by
    simp only [List.all_cons, Bool.and_eq_true] at hds
    simp [takeDigits, hds.1, takeDigits_append ds' rest hds.2 hrest]

theorem parseNatNum_natDigits (n : Nat) (rest : Bytes) (hrest : noDigitHead rest = true) :
    parseNatNum (natDigits n ++ rest) = some (n, rest) := by
  unfold parseNatNum
  rw [takeDigits_append _ _ (natDigits_all_digit n) hrest]
  cases hnd : natDigits n with
  | nil => exact absurd hnd (natDigits_ne_nil n)
  | cons d ds =>
    by_cases hd0 : d = '0'
    · subst hd0
      cases ds with
      | nil =>
        have : digitsToNat ['0'] = n := by rw [← hnd]; exact digitsToNat_natDigits n
        simp [this]
      | cons e es =>
        by_cases hn : 1 ≤ n
        · exact absurd hnd (natDigits_not_leading_zero n hn _)
        · have hn0 : n = 0 := by omega
          subst hn0
          have hz : natDigits 0 = ['0'] := rfl
          rw [hz] at hnd
          cases hnd
    · have : digitsToNat (d :: ds) = n := by rw [← hnd]; exact digitsToNat_natDigits n
      simp [hd0, this]

theorem digit_head_ne_minus {d : Char} (h : isDigitChar d = true) : d ≠ '-' := by
  intro he
  subst he
  exact absurd h (by decide)

theorem parseNum_renderInt (n : Int) (rest : Bytes) (hrest : noDigitHead rest = true) :
    parseNum (renderInt n ++ rest) = some (n, rest) := by
  unfold renderInt
  by_cases hn : n < 0
  · simp only [hn, if_true, List.cons_append]
    have hcast : -((n.natAbs : Nat) : Int) = n := by omega
    unfold parseNum
    simp only [List.head?_cons, List.tail_cons, parseNatNum_natDigits n.natAbs rest hrest]
    simp only [if_true]
    rw [hcast]
  · simp only [hn, if_false]
    unfold parseNum
    rw [parseNatNum_natDigits n.toNat rest hrest]
    cases hnd : natDigits n.toNat with
    | nil => exact absurd hnd (natDigits_ne_nil _)
    | cons d ds =>
      have hd : isDigitChar d = true := by
        have hall := natDigits_all_digit n.toNat
        rw [hnd] at hall
        simp only [List.all_cons, Bool.and_eq_true] at hall
        exact hall.1
      have hdm : d ≠ '-' := digit_head_ne_minus hd
      rw [List.cons_append, List.head?_cons]
      have hcond2 : ¬ ((some d : Option Char) = some '-') := by simp [hdm]
      rw [if_neg hcond2]
      have hcast : ((n.toNat : Nat) : Int) = n := by omega
      show some (((n.toNat : Nat) : Int), rest) = some (n, rest)
      rw [hcast]

/-! ### String escape round trip -/

theorem hexVal_hexDigit (m : Nat) (h : m < 16) : hexVal (hexDigit m) = some m := by
  interval_cases m <;> decide

theorem parseStrBody_escape : ∀ (s rest : Bytes),
    parseStrBody (escapeStr s ++ '"' :: rest) = some (s, rest)
  | [], rest => by
    rw [show escapeStr [] ++ '"' :: rest = '"' :: rest from rfl, parseStrBody.eq_def]
    simp
  | c :: s', rest => by
    have ih := parseStrBody_escape s' rest
    rw [show escapeStr (c :: s') = escapeChar c ++ escapeStr s' from rfl, List.append_assoc]
    unfold escapeChar
    by_cases h1 : c = '"'
    · subst h1
      simp only [if_pos rfl, List.cons_append, List.nil_append]
      rw [parseStrBody.eq_def]
      simp [unescapeChar, ih]
    · by_cases h2 : c = '\\'
      · subst h2
        simp only [h1, if_false, if_pos rfl, List.cons_append, List.nil_append]
        rw [parseStrBody.eq_def]
        simp [unescapeChar, ih]
      · by_cases h3 : c = '\n'
        · subst h3
          simp only [h1, h2, if_false, if_pos rfl, List.cons_append, List.nil_append]
          rw [parseStrBody.eq_def]
          simp [unescapeChar, ih]
        · by_cases h4 : c = '\r'
          · subst h4
            simp only [h1, h2, h3, if_false, if_pos rfl, List.cons_append, List.nil_append]
            rw [parseStrBody.eq_def]
            simp [unescapeChar, ih]
          · by_cases h5 : c = '\t'
            · subst h5
              simp only [h1, h2, h3, h4, if_false, if_pos rfl, List.cons_append, List.nil_append]
              rw [parseStrBody.eq_def]
              simp [unescapeChar, ih]
            · by_cases h6 : c.toNat < 32 ∨ c = '<' ∨ c = '>' ∨ c = '&'
              · have h6' : (c.toNat < 32 || c = '<' || c = '>' || c = '&') = true := by
                  simp only [Bool.or_eq_true, decide_eq_true_eq]
                  tauto
                have hlt : c.toNat < 256 := by
                  rcases h6 with h | h | h | h <;> first
                    | omega
                    | (subst h; decide)
                have e1 : hexVal (hexDigit (c.toNat / 16)) = some (c.toNat / 16) :=
                  hexVal_hexDigit _ (by omega)
                have e2 : hexVal (hexDigit (c.toNat % 16)) = some (c.toNat % 16) :=
                  hexVal_hexDigit _ (by omega)
                have hv0 : hexVal '0' = some 0 := by decide
                simp only [h1, h2, h3, h4, h5, if_false, h6', if_true, List.cons_append,
                  List.nil_append]
                rw [parseStrBody.eq_def]
                simp [hv0, e1, e2, ih]
                conv_rhs => rw [← Char.ofNat_toNat c]
                congr 1
                omega
              · push_neg at h6
                have h6' : (c.toNat < 32 || c = '<' || c = '>' || c = '&') = false := by
                  simp only [Bool.or_eq_false_iff, decide_eq_false_iff_not]
                  exact ⟨⟨⟨by omega, h6.2.1⟩, h6.2.2.1⟩, h6.2.2.2⟩
                by_cases h7 : c.toNat = 8232 ∨ c.toNat = 8233
                · have h7' : (c.toNat = 8232 || c.toNat = 8233) = true := by
                    simp only [Bool.or_eq_true, decide_eq_true_eq]; exact h7
                  have e2 : hexVal (hexDigit (c.toNat % 16)) = some (c.toNat % 16) :=
                    hexVal_hexDigit _ (by omega)
                  have hv0 : hexVal '0' = some 0 := by decide
                  have hv2 : hexVal '2' = some 2 := by decide
                  simp only [h1, h2, h3, h4, h5, if_false, h6', h7', if_true, List.cons_append,
                    List.nil_append]
                  rw [parseStrBody.eq_def]
                  simp [hv0, hv2, e2, ih]
                  conv_rhs => rw [← Char.ofNat_toNat c]
                  congr 1
                  omega
                · push_neg at h7
                  have h7' : (c.toNat = 8232 || c.toNat = 8233) = false := by
                    simp only [Bool.or_eq_false_iff, decide_eq_false_iff_not]
                    exact ⟨h7.1, h7.2⟩
                  have hge : ¬ c.toNat < 32 := fun hc => absurd hc (by omega)
                  simp only [h1, h2, h3, h4, h5, if_false, h6', h7', List.singleton_append]
                  rw [parseStrBody.eq_def]
                  simp [h1, h2, hge, ih]
  termination_by s rest => s.length

/-! ### Heads of rendered values -/

theorem skipWs_cons_not_ws {c : Char} (rest : Bytes) (h : isWsChar c = false) :
    skipWs (c :: rest) = c :: rest := by
  simp [skipWs, h]

theorem renderInt_length_pos (n : Int) : 0 < (renderInt n).length := by
  unfold renderInt
  split
  · simp
  · have := natDigits_ne_nil n.toNat
    cases h : natDigits n.toNat with
    | nil => exact absurd h this
    | cons d tl => simp [h]

theorem renderInt_head (n : Int) : ∃ d tl, renderInt n = d :: tl ∧
    (isDigitChar d = true ∨ d = '-') := by
  unfold renderInt
  split
  · exact ⟨'-', natDigits n.natAbs, rfl, Or.inr rfl⟩
  · cases h : natDigits n.toNat with
    | nil => exact absurd h (natDigits_ne_nil _)
    | cons d tl =>
      refine ⟨d, tl, rfl, Or.inl ?_⟩
      have hall := natDigits_all_digit n.toNat
      rw [h] at hall
      simp only [List.all_cons, Bool.and_eq_true] at hall
      exact hall.1

theorem numHead_facts {d : Char} (h : isDigitChar d = true ∨ d = '-') :
    isWsChar d = false ∧ d ≠ 'n' ∧ d ≠ 't' ∧ d ≠ 'f' ∧ d ≠ '"' ∧ d ≠ '[' ∧ d ≠ obrace ∧
      d ≠ ']' ∧ (d = '-' || isDigitChar d) = true := by
  rcases h with h | h
  · have hn : 48 ≤ d.toNat ∧ d.toNat ≤ 57 := by
      simpa [isDigitChar, Bool.and_eq_true, decide_eq_true_eq] using h
    refine ⟨?_, ?_, ?_, ?_, ?_, ?_, ?_, ?_, by simp [h]⟩
    · simp only [isWsChar, Bool.or_eq_false_iff, decide_eq_false_iff_not]
      refine ⟨⟨⟨?_, ?_⟩, ?_⟩, ?_⟩ <;> (intro he; subst he; exact absurd hn (by decide))
    all_goals (intro he; subst he; exact absurd hn (by decide))
  · subst h
    refine ⟨by decide, by decide, by decide, by decide, by decide, by decide, ?_, by decide,
      by decide⟩
    show ('-' : Char) ≠ obrace
    decide

theorem renderJ_head (v : JVal) : ∃ d tl, renderJ v = d :: tl ∧ isWsChar d = false ∧
    d ≠ ']' := by
  cases v with
  | jnull => exact ⟨'n', _, rfl, by decide, by decide⟩
  | jbool b => cases b with
    | true => exact ⟨'t', _, rfl, by decide, by decide⟩
    | false => exact ⟨'f', _, rfl, by decide, by decide⟩
  | jnum n =>
    obtain ⟨d, tl, heq, hd⟩ := renderInt_head n
    obtain ⟨hws, _, _, _, _, _, _, hrb, _⟩ := numHead_facts hd
    exact ⟨d, tl, heq, hws, hrb⟩
  | jstr s => exact ⟨'"', _, rfl, by decide, by decide⟩
  | jarr xs => exact ⟨'[', _, rfl, by decide, by decide⟩
  | jobj kvs =>
    refine ⟨obrace, _, rfl, ?_, ?_⟩
    · show isWsChar (Char.ofNat 123) = false
      decide
    · show Char.ofNat 123 ≠ ']'
      decide

theorem noDigitHead_elemsSep (xs : List JVal) (rest : Bytes) :
    noDigitHead (renderElemsSep xs ++ ']' :: rest) = true := by
  cases xs with
  | nil => simp [renderElemsSep, noDigitHead, isDigitChar]
  | cons x xs' => simp [renderElemsSep, noDigitHead, isDigitChar]

theorem noDigitHead_fieldsSep (kvs : List (Bytes × JVal)) (rest : Bytes) :
    noDigitHead (renderFieldsSep kvs ++ cbrace :: rest) = true := by
  cases kvs with
  | nil =>
    show noDigitHead (Char.ofNat 125 :: rest) = true
    simp [noDigitHead, isDigitChar]
  | cons kv kvs' =>
    rcases kv with ⟨k, v⟩
    simp [renderFieldsSep, noDigitHead, isDigitChar]

/-! ### Size bounds -/

theorem jsizeV_pos (v : JVal) : 1 ≤ jsizeV v := by
  cases v <;> simp [jsizeV]

theorem jsizeElems_pos (xs : List JVal) : 1 ≤ jsizeElems xs := by
  cases xs <;> simp [jsizeElems] <;> omega

theorem jsizeFields_pos (kvs : List (Bytes × JVal)) : 1 ≤ jsizeFields kvs := by
  cases kvs with
  | nil => simp [jsizeFields]
  | cons kv rest =>
    rcases kv with ⟨k, v⟩
    simp [jsizeFields]
    omega

theorem renderString_length (s : Bytes) : 2 ≤ (renderString s).length := by
  simp [renderString]

mutual

theorem jsizeV_le : ∀ v : JVal, jsizeV v ≤ 2 * (renderJ v).length
  | .jnull => by simp [jsizeV, renderJ]
  | .jbool true => by simp [jsizeV, renderJ]
  | .jbool false => by simp [jsizeV, renderJ]
  | .jnum n => by
    have := renderInt_length_pos n
    simp only [jsizeV, renderJ]
    omega
  | .jstr s => by
    have := renderString_length s
    simp only [jsizeV, renderJ]
    omega
  | .jarr xs => by
    have := jsizeElems_le xs
    simp only [jsizeV, renderJ, List.length_cons, List.length_append, List.length_singleton]
    omega
  | .jobj kvs => by
    have := jsizeFields_le kvs
    simp only [jsizeV, renderJ, List.length_cons, List.length_append, List.length_singleton]
    omega

theorem jsizeElems_le : ∀ xs : List JVal, jsizeElems xs ≤ 2 * (renderElems xs).length + 2
  | [] => by simp [jsizeElems, renderElems]
  | [x] => by
    have := jsizeV_le x
    simp only [jsizeElems, renderElems]
    omega
  | x :: y :: rest => by
    have h1 := jsizeV_le x
    have h2 := jsizeElems_le (y :: rest)
    simp only [jsizeElems, renderElems, List.length_append, List.length_cons] at h2 ⊢
    omega

theorem jsizeFields_le : ∀ kvs : List (Bytes × JVal),
    jsizeFields kvs ≤ 2 * (renderFields kvs).length + 2
  | [] => by simp [jsizeFields, renderFields]
  | [(k, v)] => by
    have h1 := jsizeV_le v
    have h2 := renderString_length k
    simp only [jsizeFields, renderFields, List.length_append, List.length_cons]
    omega
  | (k, v) :: (l, w) :: rest => by
    have h1 := jsizeV_le v
    have h2 := jsizeFields_le ((l, w) :: rest)
    have h3 := renderString_length k
    simp only [jsizeFields, renderFields, List.length_append, List.length_cons] at h2 ⊢
    omega

end

/-! ### Rendering shape lemmas -/

theorem renderElems_cons (x : JVal) : ∀ xs : List JVal,
    renderElems (x :: xs) = renderJ x ++ renderElemsSep xs
  | [] => by simp [renderElems, renderElemsSep]
  | y :: ys => by
    have ih := renderElems_cons y ys
    simp [renderElems, renderElemsSep, ih]

theorem renderFields_cons (k : Bytes) (v : JVal) : ∀ kvs : List (Bytes × JVal),
    renderFields ((k, v) :: kvs) = renderString k ++ ':' :: renderJ v ++ renderFieldsSep kvs
  | [] => by simp [renderFields, renderFieldsSep]
  | (l, w) :: fs => by
    have ih := renderFields_cons l w fs
    simp [renderFields, renderFieldsSep, ih]

/-! ### The parser recovers every canonical rendering -/

theorem parse_render_fuel : ∀ fuel : Nat,
    (∀ (v : JVal) (rest : Bytes), canonV v = true → noDigitHead rest = true →
      jsizeV v ≤ fuel → parseV fuel (renderJ v ++ rest) = some (v, rest)) ∧
    (∀ (xs : List JVal) (rest : Bytes), canonElems xs = true → jsizeElems xs ≤ fuel →
      parseElemsFirst fuel (renderElems xs ++ ']' :: rest) = some (.jarr xs, rest)) ∧
    (∀ (xs : List JVal) (rest : Bytes), canonElems xs = true → jsizeElems xs ≤ fuel →
      parseElemsNext fuel (renderElemsSep xs ++ ']' :: rest) = some (xs, rest)) ∧
    (∀ (k : Bytes) (v : JVal) (rest : Bytes), canonV v = true → noDigitHead rest = true →
      1 + jsizeV v ≤ fuel →
      parseOneField fuel (renderString k ++ ':' :: renderJ v ++ rest) = some ((k, v), rest)) ∧
    (∀ (kvs : List (Bytes × JVal)) (rest : Bytes), fieldsSorted kvs = true →
      canonFields kvs = true → jsizeFields kvs ≤ fuel →
      parseFieldsFirst fuel (renderFields kvs ++ cbrace :: rest) = some (.jobj kvs, rest)) ∧
    (∀ (acc kvs : List (Bytes × JVal)) (rest : Bytes), fieldsSorted (acc ++ kvs) = true →
      canonFields kvs = true → jsizeFields kvs ≤ fuel →
      parseFieldsNext fuel acc (renderFieldsSep kvs ++ cbrace :: rest) =
        some (.jobj (acc ++ kvs), rest)) := by
  intro fuel
  induction fuel with
  | zero =>
    refine ⟨?_, ?_, ?_, ?_, ?_, ?_⟩
    · intro v _ _ _ hsz; exact absurd hsz (by have := jsizeV_pos v; omega)
    · intro xs _ _ hsz; exact absurd hsz (by have := jsizeElems_pos xs; omega)
    · intro xs _ _ hsz; exact absurd hsz (by have := jsizeElems_pos xs; omega)
    · intro k v _ _ _ hsz; exact absurd hsz (by have := jsizeV_pos v; omega)
    · intro kvs _ _ _ hsz; exact absurd hsz (by have := jsizeFields_pos kvs; omega)
    · intro acc kvs _ _ _ hsz; exact absurd hsz (by have := jsizeFields_pos kvs; omega)
  | succ fuel ih =>
    obtain ⟨ihV, ihE1, ihE2, ihOF, ihF1, ihF2⟩ := ih
    refine ⟨?_, ?_, ?_, ?_, ?_, ?_⟩
    · -- parseV
      intro v rest hcanon hrest hsz
      cases v with
      | jnull => rw [parseV]; simp [renderJ, skipWs, isWsChar]
      | jbool b =>
        cases b with
        | true => rw [parseV]; simp [renderJ, skipWs, isWsChar]
        | false => rw [parseV]; simp [renderJ, skipWs, isWsChar]
      | jstr s =>
        rw [parseV]
        have h : renderJ (.jstr s) ++ rest = '"' :: (escapeStr s ++ '"' :: rest) := by
          simp [renderJ, renderString]
        rw [h, skipWs_cons_not_ws _ (by decide)]
        simp [parseStrBody_escape s rest]
      | jnum n =>
        rw [parseV]
        obtain ⟨d, tl, heq, hd⟩ := renderInt_head n
        obtain ⟨hws, hn, ht, hf, hq, hbr, hob, hrb, hcond⟩ := numHead_facts hd
        have h : renderJ (.jnum n) ++ rest = d :: (tl ++ rest) := by
          simp [renderJ, heq]
        rw [h, skipWs_cons_not_ws _ hws]
        simp only [hn, ht, hf, hq, hbr, hob, if_false]
        rw [if_pos hcond]
        have h2 : d :: (tl ++ rest) = renderInt n ++ rest := by rw [heq]; simp
        rw [h2, parseNum_renderInt n rest hrest]
      | jarr xs =>
        rw [parseV]
        have h : renderJ (.jarr xs) ++ rest = '[' :: (renderElems xs ++ ']' :: rest) := by
          simp [renderJ]
        rw [h, skipWs_cons_not_ws _ (by decide)]
        have hc : canonElems xs = true := by simpa [canonV] using hcanon
        have hs : jsizeElems xs ≤ fuel := by
          have : jsizeV (.jarr xs) = 1 + jsizeElems xs := by simp [jsizeV]
          omega
        simp [ihE1 xs rest hc hs]
      | jobj kvs =>
        rw [parseV]
        have h : renderJ (.jobj kvs) ++ rest = obrace :: (renderFields kvs ++ cbrace :: rest) := by
          simp [renderJ]
        rw [h, skipWs_cons_not_ws _ (by decide)]
        have hcs : fieldsSorted kvs = true ∧ canonFields kvs = true := by
          simpa [canonV, Bool.and_eq_true] using hcanon
        have hs : jsizeFields kvs ≤ fuel := by
          have : jsizeV (.jobj kvs) = 1 + jsizeFields kvs := by simp [jsizeV]
          omega
        simp [show ¬ (obrace = 'n') from by decide, show ¬ (obrace = 't') from by decide,
          show ¬ (obrace = 'f') from by decide, show ¬ (obrace = '"') from by decide,
          show ¬ (obrace = '[') from by decide,
          show ¬ (obrace = '-' ∨ isDigitChar obrace = true) from by decide,
          ihF1 kvs rest hcs.1 hcs.2 hs]
    · -- parseElemsFirst
      intro xs rest hcanon hsz
      cases xs with
      | nil =>
        rw [parseElemsFirst]
        simp [renderElems, skipWs, isWsChar]
      | cons x xs' =>
        rw [parseElemsFirst]
        obtain ⟨d, tl, heq, hws, hrb⟩ := renderJ_head x
        have h : renderElems (x :: xs') ++ ']' :: rest =
            d :: (tl ++ (renderElemsSep xs' ++ ']' :: rest)) := by
          rw [renderElems_cons, heq]
          simp
        rw [h, skipWs_cons_not_ws _ hws]
        have hcx : canonV x = true ∧ canonElems xs' = true := by
          simpa [canonElems, Bool.and_eq_true] using hcanon
        have hszx : jsizeV x ≤ fuel ∧ jsizeElems xs' ≤ fuel := by
          have : jsizeElems (x :: xs') = 1 + jsizeV x + jsizeElems xs' := by simp [jsizeElems]
          have h1 := jsizeV_pos x
          have h2 := jsizeElems_pos xs'
          omega
        have h2 : d :: (tl ++ (renderElemsSep xs' ++ ']' :: rest)) =
            renderJ x ++ (renderElemsSep xs' ++ ']' :: rest) := by rw [heq]; simp
        split
        · rename_i r hmatch
          injection hmatch with hd1 _
          exact absurd hd1 hrb
        · rw [h2, ihV x _ hcx.1 (noDigitHead_elemsSep xs' rest) hszx.1]
          simp [ihE2 xs' rest hcx.2 hszx.2]
    · -- parseElemsNext
      intro xs rest hcanon hsz
      cases xs with
      | nil =>
        rw [parseElemsNext]
        simp [renderElemsSep, skipWs, isWsChar]
      | cons x xs' =>
        rw [parseElemsNext]
        have h : renderElemsSep (x :: xs') ++ ']' :: rest =
            ',' :: (renderJ x ++ (renderElemsSep xs' ++ ']' :: rest)) := by
          simp [renderElemsSep]
        rw [h, skipWs_cons_not_ws _ (by decide)]
        have hcx : canonV x = true ∧ canonElems xs' = true := by
          simpa [canonElems, Bool.and_eq_true] using hcanon
        have hszx : jsizeV x ≤ fuel ∧ jsizeElems xs' ≤ fuel := by
          have : jsizeElems (x :: xs') = 1 + jsizeV x + jsizeElems xs' := by simp [jsizeElems]
          have h1 := jsizeV_pos x
          have h2 := jsizeElems_pos xs'
          omega
        rw [show (',' : Char) :: (renderJ x ++ (renderElemsSep xs' ++ ']' :: rest)) =
          ',' :: (renderJ x ++ (renderElemsSep xs' ++ ']' :: rest)) from rfl]
        simp only [show ¬ ((',' : Char) = ']') from by decide, if_false]
        rw [ihV x _ hcx.1 (noDigitHead_elemsSep xs' rest) hszx.1]
        simp [ihE2 xs' rest hcx.2 hszx.2]
    · -- parseOneField
      intro k v rest hcanon hrest hsz
      rw [parseOneField]
      have h : renderString k ++ ':' :: renderJ v ++ rest =
          '"' :: (escapeStr k ++ '"' :: (':' :: (renderJ v ++ rest))) := by
        simp [renderString]
      rw [h, skipWs_cons_not_ws _ (by decide)]
      simp only [parseStrBody_escape k (':' :: (renderJ v ++ rest))]
      rw [skipWs_cons_not_ws _ (by decide)]
      simp [ihV v rest hcanon hrest (by omega)]
    · -- parseFieldsFirst
      intro kvs rest hsorted hcanon hsz
      cases kvs with
      | nil =>
        rw [parseFieldsFirst]
        have h : renderFields [] ++ cbrace :: rest = cbrace :: rest := by
          simp [renderFields]
        rw [h, skipWs_cons_not_ws _ (by decide : isWsChar cbrace = false)]
        simp
      | cons kv kvs' =>
        rcases kv with ⟨k, v⟩
        rw [parseFieldsFirst]
        have h : renderFields ((k, v) :: kvs') ++ cbrace :: rest =
            '"' :: (escapeStr k ++ '"' :: (':' :: (renderJ v ++
              (renderFieldsSep kvs' ++ cbrace :: rest)))) := by
          rw [renderFields_cons]
          simp [renderString]
        rw [h, skipWs_cons_not_ws _ (by decide)]
        have hcx : canonV v = true ∧ canonFields kvs' = true := by
          simpa [canonFields, Bool.and_eq_true] using hcanon
        have hszx : 1 + jsizeV v ≤ fuel ∧ jsizeFields kvs' ≤ fuel := by
          have : jsizeFields ((k, v) :: kvs') = 2 + jsizeV v + jsizeFields kvs' := by
            simp [jsizeFields]
          have h2 := jsizeFields_pos kvs'
          omega
        simp only [show ¬ (('"' : Char) = cbrace) from by decide, if_false]
        have hof := ihOF k v (renderFieldsSep kvs' ++ cbrace :: rest) hcx.1
          (noDigitHead_fieldsSep kvs' rest) hszx.1
        have h2 : '"' :: (escapeStr k ++ '"' :: (':' :: (renderJ v ++
            (renderFieldsSep kvs' ++ cbrace :: rest)))) =
            renderString k ++ ':' :: renderJ v ++ (renderFieldsSep kvs' ++ cbrace :: rest) := by
          simp [renderString]
        rw [h2, hof]
        have hins : objInsert k v [] = [(k, v)] := rfl
        have hf2 := ihF2 [(k, v)] kvs' rest (by simpa using hsorted) hcx.2 hszx.2
        simp only [hins]
        simpa using hf2
    · -- parseFieldsNext
      intro acc kvs rest hsorted hcanon hsz
      cases kvs with
      | nil =>
        rw [parseFieldsNext]
        have h : renderFieldsSep [] ++ cbrace :: rest = cbrace :: rest := by
          simp [renderFieldsSep]
        rw [h, skipWs_cons_not_ws _ (by decide : isWsChar cbrace = false)]
        simp
      | cons kv kvs' =>
        rcases kv with ⟨k, v⟩
        rw [parseFieldsNext]
        have h : renderFieldsSep ((k, v) :: kvs') ++ cbrace :: rest =
            ',' :: (renderString k ++ ':' :: renderJ v ++
              (renderFieldsSep kvs' ++ cbrace :: rest)) := by
          simp [renderFieldsSep]
        rw [h, skipWs_cons_not_ws _ (by decide)]
        have hcx : canonV v = true ∧ canonFields kvs' = true := by
          simpa [canonFields, Bool.and_eq_true] using hcanon
        have hszx : 1 + jsizeV v ≤ fuel ∧ jsizeFields kvs' ≤ fuel := by
          have : jsizeFields ((k, v) :: kvs') = 2 + jsizeV v + jsizeFields kvs' := by
            simp [jsizeFields]
          have h2 := jsizeFields_pos kvs'
          omega
        simp only [show ¬ ((',' : Char) = cbrace) from by decide, if_false,
          show ((',' : Char) = ',') = True from by simp, if_true]
        rw [ihOF k v (renderFieldsSep kvs' ++ cbrace :: rest) hcx.1
          (noDigitHead_fieldsSep kvs' rest) hszx.1]
        have hins : objInsert k v acc = acc ++ [(k, v)] :=
          objInsert_append (fieldsSorted_mid hsorted)
        have hsorted2 : fieldsSorted ((acc ++ [(k, v)]) ++ kvs') = true := by
          rw [List.append_assoc]
          simpa using hsorted
        have hf2 := ihF2 (acc ++ [(k, v)]) kvs' rest hsorted2 hcx.2 hszx.2
        simp only [hins]
        rw [hf2]
        rw [List.append_assoc]
        simp

/-- Round trip: unmarshaling the rendering of a canonical value (a Go map
image) recovers the value, exactly as json.Unmarshal recovers what
json.Marshal wrote. -/
theorem unmarshalJ_renderJ (v : JVal) (h : canonV v = true) :
    unmarshalJ (renderJ v) = some v := by
  unfold unmarshalJ
  have hsz : jsizeV v ≤ 2 * (renderJ v).length + 2 := by
    have := jsizeV_le v
    omega
  have hp := (parse_render_fuel (2 * (renderJ v).length + 2)).1 v [] h rfl hsz
  rw [List.append_nil] at hp
  rw [hp]
  simp [skipWs]

/-! ### Everything the parser produces is canonical -/

theorem parse_canon_fuel : ∀ fuel : Nat,
    (∀ s v rest, parseV fuel s = some (v, rest) → canonV v = true) ∧
    (∀ s v rest, parseElemsFirst fuel s = some (v, rest) → canonV v = true) ∧
    (∀ s vs rest, parseElemsNext fuel s = some (vs, rest) → canonElems vs = true) ∧
    (∀ s k v rest, parseOneField fuel s = some ((k, v), rest) → canonV v = true) ∧
    (∀ s v rest, parseFieldsFirst fuel s = some (v, rest) → canonV v = true) ∧
    (∀ acc s v rest, fieldsSorted acc = true → canonFields acc = true →
      parseFieldsNext fuel acc s = some (v, rest) → canonV v = true) := by
  intro fuel
  induction fuel with
  | zero =>
    refine ⟨?_, ?_, ?_, ?_, ?_, ?_⟩
    · intro s v rest h; rw [parseV] at h; cases h
    · intro s v rest h; rw [parseElemsFirst] at h; cases h
    · intro s vs rest h; rw [parseElemsNext] at h; cases h
    · intro s k v rest h; rw [parseOneField] at h; cases h
    · intro s v rest h; rw [parseFieldsFirst] at h; cases h
    · intro acc s v rest h1 h2 h3; rw [parseFieldsNext.eq_def] at h3; cases h3
  | succ fuel ih =>
    obtain ⟨ihV, ihE1, ihE2, ihOF, ihF1, ihF2⟩ := ih
    refine ⟨?_, ?_, ?_, ?_, ?_, ?_⟩
    · intro s v rest h
      rw [parseV] at h
      split at h
      · cases h
      · split_ifs at h with h1 h2 h3 h4 h5 h6 h7
        · split at h <;> cases h
          simp [canonV]
        · split at h <;> cases h
          simp [canonV]
        · split at h <;> cases h
          simp [canonV]
        · split at h
          · cases h
            simp [canonV]
          · cases h
        · exact ihE1 _ _ _ h
        · exact ihF1 _ _ _ h
        · split at h
          · cases h
            simp [canonV]
          · cases h
    · intro s v rest h
      rw [parseElemsFirst] at h
      split at h
      · cases h
        simp [canonV, canonElems]
      · split at h
        · cases h
        · rename_i v1 rest1 hv1
          split at h
          · cases h
          · rename_i vs rest2 hvs
            cases h
            have c1 := ihV _ _ _ hv1
            have c2 := ihE2 _ _ _ hvs
            simp [canonV, canonElems, c1, c2]
    · intro s vs rest h
      rw [parseElemsNext] at h
      split at h
      · cases h
        simp [canonElems]
      · split at h
        · cases h
        · rename_i v1 rest1 hv1
          split at h
          · cases h
          · rename_i vs1 rest2 hvs
            cases h
            have c1 := ihV _ _ _ hv1
            have c2 := ihE2 _ _ _ hvs
            simp [canonElems, c1, c2]
      · cases h
    · intro s k v rest h
      rw [parseOneField] at h
      split at h
      · split at h
        · cases h
        · rename_i k1 rest1 hk1
          split at h
          · split at h
            · cases h
            · rename_i v1 rest2 hv1
              cases h
              exact ihV _ _ _ hv1
          · cases h
      · cases h
    · intro s v rest h
      rw [parseFieldsFirst] at h
      split at h
      · cases h
      · split_ifs at h with h1
        · cases h
          simp [canonV, fieldsSorted, canonFields]
        · split at h
          · cases h
          · rename_i k1 v1 rest1 hkv
            have cv := ihOF _ _ _ _ hkv
            have hs1 : fieldsSorted (objInsert k1 v1 []) = true := rfl
            have hc1 : canonFields (objInsert k1 v1 []) = true := by
              simp [objInsert, canonFields, cv]
            exact ihF2 _ _ _ _ hs1 hc1 h
    · intro acc s v rest hsacc hcacc h
      rw [parseFieldsNext] at h
      split at h
      · cases h
      · split_ifs at h with h1 h2
        · cases h
          simp [canonV, Bool.and_eq_true]
          exact ⟨hsacc, hcacc⟩
        · split at h
          · cases h
          · rename_i k1 v1 rest1 hkv
            have cv := ihOF _ _ _ _ hkv
            have hs1 : fieldsSorted (objInsert k1 v1 acc) = true :=
              fieldsSorted_objInsert k1 v1 hsacc
            have hc1 : canonFields (objInsert k1 v1 acc) = true :=
              canonFields_objInsert k1 v1 hcacc cv
            exact ihF2 _ _ _ _ hs1 hc1 h

/-- Every value json.Unmarshal produces is canonical: its objects are the
sorted duplicate-free images of the Go maps the decoder builds. -/
theorem unmarshalJ_canon (s : Bytes) (v : JVal) (h : unmarshalJ s = some v) :
    canonV v = true := by
  unfold unmarshalJ at h
  split at h
  · rename_i v1 rest1 hv1
    split_ifs at h
    cases h
    exact (parse_canon_fuel _).1 _ _ _ hv1
  · cases h

/-! ### Claim C1 -/

/-- C1: the claim says revision assignment is next = last + 1 in every
backend, so two successive Puts of the same key on a fresh store return
revisions 1, 2.  The sqlite backend refutes it: its getLastRevision has the
success check inverted and its LIKE pattern (the bare key) never matches a
stored meta, so both Puts return revision 0 — not strictly increasing and
not starting at 1. -/
theorem sqlite_revisions_not_incrementing :
    (sqlitePutN [] tdA 2).1 = [0, 0] ∧ (sqlitePutN [] tdA 2).1 ≠ [1, 2] := by
  exact ⟨by decide, by decide⟩

/-! ### Claim C2 -/

/-- C2: the claim says Get of a never-written key returns the store
package's ErrNotFound in every backend.  The sqlite backend refutes it
twice over: on a fresh store Get returns database/sql's ErrNoRows verbatim
(a different error value from store.ErrNotFound, contradicting the
TiddlerStore contract documented in store.go), and on a store holding the
tiddler titled hello, Get of the never-written key ell returns that other
tiddler without any error, because the lookup is LIKE %key% substring
matching. -/
theorem sqlite_get_wrong_error :
    sqliteGet [] keyA = .error .errNoRows ∧
    GoErr.errNoRows ≠ GoErr.errNotFound ∧
    sqliteGet (sqlitePut [] tdHello).2 "ell".data =
      .ok ⟨[], tdHello.meta, tdHello.text, true⟩ := by
  exact ⟨rfl, by decide, by decide⟩

/-! ### Claim C3 -/

/-- C3: the claim says that after a successful Delete, Get reports not
found and All excludes the key.  The sqlite backend refutes it: Delete's
pattern is the bare key, which matches no stored meta, so Delete reports
success while removing nothing — the state is unchanged, Get still returns
the tiddler, and All still lists its record. -/
theorem sqlite_delete_leaves_record :
    (sqliteDelete (sqlitePut [] tdA).2 keyA).1 = .ok () ∧
    (sqliteDelete (sqlitePut [] tdA).2 keyA).2 = (sqlitePut [] tdA).2 ∧
    sqliteGet (sqliteDelete (sqlitePut [] tdA).2 keyA).2 keyA =
      .ok ⟨[], tdA.meta, tdA.text, true⟩ ∧
    sqliteAll (sqliteDelete (sqlitePut [] tdA).2 keyA).2 = [⟨[], tdA.meta, [], false⟩] := by
  exact ⟨rfl, by decide, by decide, by decide⟩

/-! ### Claim C6 -/

/-- C6: the claim says every successful Put and Delete appends exactly one
new history entry and no operation ever mutates an existing one.  The bolt
backend refutes it: Put A (revision 1, snapshot with text x at history key
A#1), Delete A (tombstone at A#2), then Put A again — the deleted live
metadata entry is empty and unparseable, so getLastRevision restarts at 1
and the second Put overwrites the existing history entry A#1 with the new
snapshot. -/
theorem bolt_put_after_delete_overwrites_history :
    boltPut boltFresh tdA = .ok 1 (boltPutRes boltFresh tdA).2 ∧
    kvGet (boltPutRes boltFresh tdA).2.history (histKey keyA 1) = some snapA1x ∧
    (boltDelete (boltPutRes boltFresh tdA).2 keyA).1 = .ok () ∧
    boltPut (boltDelete (boltPutRes boltFresh tdA).2 keyA).2 tdAy =
      .ok 1 (boltPutRes (boltDelete (boltPutRes boltFresh tdA).2 keyA).2 tdAy).2 ∧
    kvGet (boltPutRes (boltDelete (boltPutRes boltFresh tdA).2 keyA).2 tdAy).2.history
      (histKey keyA 1) = some snapA1y ∧
    snapA1x ≠ snapA1y := by
  exact ⟨by decide, by decide, rfl, by decide, by decide, by decide⟩

/-! ### Claim C10 -/

/-- C10: in the bolt backend, Delete of a never-written key (no live
metadata entry) returns nil and nevertheless writes empty values under both
live entry keys and an empty tombstone history entry at revision 1. -/
theorem bolt_delete_never_written (s : BoltState) (key : Bytes)
    (h : kvGet s.tiddler (metaKey key) = none) :
    (boltDelete s key).1 = .ok () ∧
    kvGet (boltDelete s key).2.tiddler (metaKey key) = some [] ∧
    kvGet (boltDelete s key).2.tiddler (textKey key) = some [] ∧
    kvGet (boltDelete s key).2.history (histKey key 1) = some [] := by
  have hrev : getLastRevision s.tiddler (metaKey key) = 1 := by
    unfold getLastRevision
    rw [h]
  unfold boltDelete
  rw [hrev]
  refine ⟨rfl, ?_, ?_, ?_⟩
  · rw [kvGet_kvPut_ne _ _ (fun he => metaKey_ne_textKey key he.symm), kvGet_kvPut_self]
  · rw [kvGet_kvPut_self]
  · rw [kvGet_kvPut_self]

/-- Witness for C10 at the fresh store and the key A. -/
theorem bolt_delete_never_written_witness :
    kvGet boltFresh.tiddler (metaKey keyA) = none ∧
    ((boltDelete boltFresh keyA).1 = .ok () ∧
      kvGet (boltDelete boltFresh keyA).2.tiddler (metaKey keyA) = some [] ∧
      kvGet (boltDelete boltFresh keyA).2.tiddler (textKey keyA) = some [] ∧
      kvGet (boltDelete boltFresh keyA).2.history (histKey keyA 1) = some []) :=
  ⟨rfl, bolt_delete_never_written boltFresh keyA rfl⟩

/-! ### Claim C7 -/

/-- C7 counterexample: the claim says Delete of a key with no live record
fails with the NotFound error in every backend rather than succeeding as a
silent no-op.  The bolt backend refutes it: Delete on the fresh store
returns success (and the sqlite backend succeeds as a pure no-op as
well). -/
theorem bolt_delete_missing_succeeds :
    (boltDelete boltFresh keyA).1 = .ok () ∧
    (boltDelete boltFresh keyA).1 ≠ .error .errNotFound ∧
    (sqliteDelete [] keyA).1 = .ok () := by
  exact ⟨rfl, by decide, rfl⟩

/-- C7 (amended): no backend returns the store's ErrNotFound for Delete of
a key with no live record: the flat-file backend fails with the
file-system not-found error, the bolt backend always reports success, and
the sqlite backend reports success leaving the table unchanged when no row
matches. -/
theorem delete_missing_behavior :
    (∀ (s : FlatState) (key : Bytes), kvGet s.tiddlers (tidName key) = none →
      (flatDelete s key).1 = .error .fsNotExist) ∧
    (∀ (s : BoltState) (key : Bytes), (boltDelete s key).1 = .ok ()) ∧
    (∀ (s : SqlState) (key : Bytes), (∀ r ∈ s, likeMatch key r.meta = false) →
      sqliteDelete s key = (.ok (), s)) := by
  refine ⟨?_, ?_, ?_⟩
  · intro s key h
    unfold flatDelete
    rw [h]
  · intro s key
    rfl
  · intro s key h
    unfold sqliteDelete
    have hf : s.filter (fun r => !likeMatch key r.meta) = s :=
      List.filter_eq_self.mpr (fun r hr => by simp [h r hr])
    rw [hf]

/-- Witness for the amended C7 at concrete empty stores and the key A. -/
theorem delete_missing_behavior_witness :
    kvGet flatFresh.tiddlers (tidName keyA) = none ∧
    (flatDelete flatFresh keyA).1 = .error .fsNotExist ∧
    (boltDelete boltFresh keyA).1 = .ok () ∧
    (∀ r ∈ ([] : SqlState), likeMatch keyA r.meta = false) ∧
    sqliteDelete [] keyA = (.ok (), []) :=
  ⟨rfl, delete_missing_behavior.1 flatFresh keyA rfl,
    delete_missing_behavior.2.1 boltFresh keyA,
    fun r hr => absurd hr (List.not_mem_nil r),
    delete_missing_behavior.2.2 [] keyA (fun r hr => absurd hr (List.not_mem_nil r))⟩

/-! ### Claim C4 -/

/-- C4 counterexample: the claim says Get's fat projection after a Put
carries a revision field equal to the returned revision, with sources in
both backends.  The sqlite backend refutes it: Put stores Meta verbatim
(revision only in its own column), so Get's projection has no revision
field at all. -/
theorem sqlite_get_projection_lacks_revision :
    (sqlitePut [] tdA).1 = .ok 0 ∧
    sqliteGet (sqlitePut [] tdA).2 keyA = .ok ⟨[], tdA.meta, tdA.text, true⟩ ∧
    marshalJSON ⟨[], tdA.meta, tdA.text, true⟩ =
      .ok (renderJ (.jobj [("text".data, .jstr "x".data), ("title".data, .jstr "A".data)])) ∧
    objLookup [(("text".data : Bytes), JVal.jstr "x".data),
      (("title".data : Bytes), JVal.jstr "A".data)] "revision".data = none := by
  exact ⟨by decide, by decide, by decide, rfl⟩

/-- C4 (amended to the bolt backend): for every prior state and every
tiddler whose Meta is a valid JSON object, Put succeeds with some revision
rev, and Get then returns a fat tiddler whose text is the stored text and
whose JSON projection serializes an object with a text field equal to the
tiddler's text and a revision field equal to rev. -/
theorem bolt_put_get_projection (s : BoltState) (t : Tiddler) (js : List (Bytes × JVal))
    (h : unmarshalJ t.meta = some (.jobj js)) :
    ∃ rev s2 t2 o,
      boltPut s t = .ok rev s2 ∧
      boltGet s2 t.key = .ok t2 ∧
      t2.withText = true ∧
      t2.text = t.text ∧
      marshalJSON t2 = .ok (renderJ (.jobj o)) ∧
      objLookup o "text".data = some (.jstr t.text) ∧
      objLookup o "revision".data = some (.jnum rev) := by
  have hcanon : canonV (.jobj js) = true := unmarshalJ_canon _ _ h
  have hsc : fieldsSorted js = true ∧ canonFields js = true := by
    simpa [canonV, Bool.and_eq_true] using hcanon
  set rev := getLastRevision s.tiddler (metaKey t.key) with hrevdef
  have hcanon2 : canonV (.jobj (objInsert "revision".data (.jnum rev) js)) = true := by
    have h1 : fieldsSorted (objInsert "revision".data (.jnum rev) js) = true :=
      fieldsSorted_objInsert _ _ hsc.1
    have h2 : canonFields (objInsert "revision".data (.jnum rev) js) = true :=
      canonFields_objInsert _ _ hsc.2 rfl
    simp [canonV, h1, h2]
  refine ⟨rev,
    ⟨kvPut (kvPut s.tiddler (metaKey t.key)
        (renderJ (.jobj (objInsert "revision".data (.jnum rev) js))))
      (textKey t.key) t.text,
      kvPut s.history (histKey t.key rev)
        (renderJ (.jobj (objInsert "text".data (.jstr t.text)
          (objInsert "revision".data (.jnum rev) js))))⟩,
    ⟨[], renderJ (.jobj (objInsert "revision".data (.jnum rev) js)), t.text, true⟩,
    objInsert "text".data (.jstr t.text) (objInsert "revision".data (.jnum rev) js),
    ?_, ?_, rfl, rfl, ?_, ?_, ?_⟩
  · unfold boltPut
    rw [h]
  · unfold boltGet
    rw [kvGet_kvPut_ne _ _ (fun he => metaKey_ne_textKey t.key he.symm), kvGet_kvPut_self,
      kvGet_kvPut_self]
    rfl
  · unfold marshalJSON
    rw [show ((⟨[], renderJ (.jobj (objInsert "revision".data (.jnum rev) js)), t.text,
      true⟩ : Tiddler)).meta = renderJ (.jobj (objInsert "revision".data (.jnum rev) js))
      from rfl, unmarshalJ_renderJ _ hcanon2]
    rfl
  · exact objLookup_objInsert_self _ _ _
  · rw [objLookup_objInsert_ne _ _ (by decide : ("text".data : Bytes) ≠ "revision".data)]
    exact objLookup_objInsert_self _ _ _

/-- Witness for the amended C4 at the fresh store and the fixture tiddler
A. -/
theorem bolt_put_get_projection_witness :
    unmarshalJ tdA.meta = some (.jobj [("title".data, JVal.jstr "A".data)]) ∧
    (∃ rev s2 t2 o,
      boltPut boltFresh tdA = .ok rev s2 ∧
      boltGet s2 tdA.key = .ok t2 ∧
      t2.withText = true ∧
      t2.text = tdA.text ∧
      marshalJSON t2 = .ok (renderJ (.jobj o)) ∧
      objLookup o "text".data = some (.jstr tdA.text) ∧
      objLookup o "revision".data = some (.jnum rev)) :=
  ⟨rfl, bolt_put_get_projection boltFresh tdA [("title".data, JVal.jstr "A".data)] rfl⟩

/-! ### Claim C5 -/

/-- C5 counterexample: the claim glosses WithText = true as fat, with its
text.  In the flat-file backend a macro-tagged document comes back from
All marked fat but with empty text — the stored text is mx under
tiddlers/M.tid, but All reads base + ".tid" without the directory join. -/
theorem flat_all_macro_text_empty :
    (flatPut flatFresh tdMacro).1 = .ok 1 ∧
    kvGet (flatPut flatFresh tdMacro).2.tiddlers (tidName "M".data) = some "mx".data ∧
    flatAll (flatPut flatFresh tdMacro).2 = [⟨[], tdMacro.meta, [], true⟩] ∧
    tdMacro.text ≠ [] := by
  exact ⟨by decide, by decide, by decide, by decide⟩

/-- Flag analysis of the bolt All cursor loop: each returned tiddler is
marked fat exactly when its meta bytes contain the macro literal, and a
skinny one carries no text. -/
theorem boltAllLoop_flag : ∀ l : List (Bytes × Bytes), ∀ t ∈ boltAllLoop l,
    t.withText = bytesContains t.meta macroLit ∧ (t.withText = false → t.text = [])
  | [] => by intro t ht; simp [boltAllLoop] at ht
  | [(k, meta)] => by
    intro t ht
    rw [boltAllLoop] at ht
    by_cases hm : meta.isEmpty = true
    · rw [if_pos hm] at ht
      simp at ht
    · rw [if_neg hm] at ht
      by_cases hc : bytesContains meta macroLit = true
      · rw [if_pos hc] at ht
        have he := List.mem_singleton.mp ht
        subst he
        exact ⟨by simp [hc], by simp⟩
      · rw [if_neg hc] at ht
        have he := List.mem_singleton.mp ht
        subst he
        exact ⟨(by simp [Bool.not_eq_true] at hc; simp [hc]), fun _ => rfl⟩
  | (k, meta) :: next :: rest => by
    intro t ht
    rw [boltAllLoop] at ht
    by_cases hm : meta.isEmpty = true
    · rw [if_pos hm] at ht
      exact boltAllLoop_flag rest t ht
    · rw [if_neg hm] at ht
      rcases List.mem_cons.mp ht with he | hmem
      · by_cases hc : bytesContains meta macroLit = true
        · rw [if_pos hc] at he
          subst he
          exact ⟨by simp [hc], by simp⟩
        · rw [if_neg hc] at he
          subst he
          exact ⟨(by simp [Bool.not_eq_true] at hc; simp [hc]), fun _ => rfl⟩
      · exact boltAllLoop_flag rest t hmem

/-- Flag analysis of the sqlite All. -/
theorem sqliteAll_flag (s : SqlState) : ∀ t ∈ sqliteAll s,
    t.withText = bytesContains t.meta macroLit ∧ (t.withText = false → t.text = []) := by
  intro t ht
  unfold sqliteAll at ht
  rcases List.mem_map.mp ht with ⟨r, _, heq⟩
  by_cases hc : bytesContains r.meta macroLit = true
  · rw [if_pos hc] at heq
    subst heq
    exact ⟨by simp [hc], by simp⟩
  · rw [if_neg hc] at heq
    subst heq
    exact ⟨(by simp [Bool.not_eq_true] at hc; simp [hc]), fun _ => rfl⟩

/-- Flag analysis of the flat-file All. -/
theorem flatAll_flag (s : FlatState) : ∀ t ∈ flatAll s,
    t.withText = bytesContains t.meta macroLit ∧ (t.withText = false → t.text = []) := by
  intro t ht
  unfold flatAll at ht
  rcases List.mem_map.mp ht with ⟨f, _, heq⟩
  simp only at heq
  by_cases hc : bytesContains ((kvGet s.tiddlers f).getD []) macroLit = true
  · rw [if_pos hc] at heq
    subst heq
    exact ⟨by simp [hc], by simp⟩
  · rw [if_neg hc] at heq
    subst heq
    exact ⟨(by simp [Bool.not_eq_true] at hc; simp [hc]), fun _ => rfl⟩

/-- C5 (amended): in every backend, All returns a document with WithText =
true exactly when its Meta bytes contain the macro tag literal (a byte
containment test), and every skinny result carries no text; in the
flat-file backend the fat results' text is empty rather than the stored
text (see the counterexample). -/
theorem all_withText_iff_macro :
    (∀ (s : BoltState), ∀ t ∈ boltAll s, t.withText = bytesContains t.meta macroLit ∧
      (t.withText = false → t.text = [])) ∧
    (∀ (s : SqlState), ∀ t ∈ sqliteAll s, t.withText = bytesContains t.meta macroLit ∧
      (t.withText = false → t.text = [])) ∧
    (∀ (s : FlatState), ∀ t ∈ flatAll s, t.withText = bytesContains t.meta macroLit ∧
      (t.withText = false → t.text = [])) :=
  ⟨fun s => boltAllLoop_flag s.tiddler, sqliteAll_flag, flatAll_flag⟩

/-- Witness for the amended C5 at a one-row sqlite store holding the
macro-tagged fixture. -/
theorem all_withText_iff_macro_witness :
    ((⟨[], tdMacro.meta, "mx".data, true⟩ : Tiddler) ∈
      sqliteAll [⟨tdMacro.meta, "mx".data, 1⟩]) ∧
    ((⟨[], tdMacro.meta, "mx".data, true⟩ : Tiddler).withText =
      bytesContains (⟨[], tdMacro.meta, "mx".data, true⟩ : Tiddler).meta macroLit ∧
      ((⟨[], tdMacro.meta, "mx".data, true⟩ : Tiddler).withText = false →
        (⟨[], tdMacro.meta, "mx".data, true⟩ : Tiddler).text = [])) :=
  ⟨by decide, all_withText_iff_macro.2.1 [⟨tdMacro.meta, "mx".data, 1⟩] _ (by decide)⟩

/-! ### Claim C8 -/

/-- C8 counterexample: the claim says MarshalJSON fails with an error
exactly when the tiddler is fat and its Meta is not a valid JSON object.
Meta null refutes the only-if direction: null is not a JSON object, yet
MarshalJSON returns no error — json.Unmarshal of null leaves the map nil
and the assignment js["text"] panics at run time. -/
theorem marshalJSON_null_meta_panics :
    ¬ ((marshalIsErr (marshalJSON tdNullFat) = true) ↔
      (tdNullFat.withText = true ∧ isJsonObj tdNullFat.meta = false)) ∧
    marshalJSON tdNullFat = .panicNilMap := by
  exact ⟨by decide, rfl⟩

/-- C8 (amended): MarshalJSON returns Meta verbatim when the tiddler is
skinny; when fat with JSON-object Meta it re-serializes the object with
the text field assigned; it returns an error exactly when fat and Meta
unmarshals into no map (invalid JSON, or valid JSON other than an object
or null); and it panics on the nil map exactly when fat and Meta is the
JSON literal null. -/
theorem marshalJSON_characterization (t : Tiddler) :
    (t.withText = false → marshalJSON t = .ok t.meta) ∧
    (∀ js, t.withText = true → unmarshalJ t.meta = some (.jobj js) →
      marshalJSON t = .ok (renderJ (.jobj (objInsert "text".data (.jstr t.text) js)))) ∧
    (marshalIsErr (marshalJSON t) = true ↔
      (t.withText = true ∧ metaUnmarshalOk t.meta = false)) ∧
    (marshalJSON t = .panicNilMap ↔ (t.withText = true ∧ unmarshalJ t.meta = some .jnull)) := by
  by_cases hw : t.withText = true
  · rcases hval : unmarshalJ t.meta with _ | v
    · refine ⟨fun hf => absurd hf (by simp [hw]), fun js _ hjs => ?_, ?_, ?_⟩
      · simp at hjs
      · simp [marshalJSON, marshalIsErr, metaUnmarshalOk, hw, hval]
      · simp [marshalJSON, hw, hval]
    · cases v with
      | jnull =>
        refine ⟨fun hf => absurd hf (by simp [hw]), fun js _ hjs => ?_, ?_, ?_⟩
        · simp at hjs
        · simp [marshalJSON, marshalIsErr, metaUnmarshalOk, hw, hval]
        · simp [marshalJSON, hw, hval]
      | jbool b =>
        refine ⟨fun hf => absurd hf (by simp [hw]), fun js _ hjs => ?_, ?_, ?_⟩
        · simp at hjs
        · simp [marshalJSON, marshalIsErr, metaUnmarshalOk, hw, hval]
        · simp [marshalJSON, hw, hval]
      | jnum n =>
        refine ⟨fun hf => absurd hf (by simp [hw]), fun js _ hjs => ?_, ?_, ?_⟩
        · simp at hjs
        · simp [marshalJSON, marshalIsErr, metaUnmarshalOk, hw, hval]
        · simp [marshalJSON, hw, hval]
      | jstr str =>
        refine ⟨fun hf => absurd hf (by simp [hw]), fun js _ hjs => ?_, ?_, ?_⟩
        · simp at hjs
        · simp [marshalJSON, marshalIsErr, metaUnmarshalOk, hw, hval]
        · simp [marshalJSON, hw, hval]
      | jarr xs =>
        refine ⟨fun hf => absurd hf (by simp [hw]), fun js _ hjs => ?_, ?_, ?_⟩
        · simp at hjs
        · simp [marshalJSON, marshalIsErr, metaUnmarshalOk, hw, hval]
        · simp [marshalJSON, hw, hval]
      | jobj js0 =>
        refine ⟨fun hf => absurd hf (by simp [hw]), fun js _ hjs => ?_, ?_, ?_⟩
        · obtain rfl : js0 = js := by simpa using hjs
          simp [marshalJSON, hw, hval]
        · simp [marshalJSON, marshalIsErr, metaUnmarshalOk, hw, hval]
        · simp [marshalJSON, hw, hval]
  · have hw' : t.withText = false := by simpa using hw
    refine ⟨fun _ => (by simp [marshalJSON, hw']), fun js hwt _ => absurd hwt hw,
      ?_, ?_⟩
    · simp [marshalJSON, marshalIsErr, hw']
    · simp [marshalJSON, hw']

/-- Witness for the amended C8 at the skinny fixture and the fat
object-Meta fixture. -/
theorem marshalJSON_characterization_witness :
    (tdA.withText = false ∧ marshalJSON tdA = .ok tdA.meta) ∧
    ((⟨keyA, metaA, "x".data, true⟩ : Tiddler).withText = true ∧
      unmarshalJ metaA = some (.jobj [("title".data, JVal.jstr "A".data)]) ∧
      marshalJSON ⟨keyA, metaA, "x".data, true⟩ =
        .ok (renderJ (.jobj (objInsert "text".data (.jstr "x".data)
          [("title".data, JVal.jstr "A".data)])))) :=
  ⟨⟨rfl, (marshalJSON_characterization tdA).1 rfl⟩,
    ⟨rfl, rfl, (marshalJSON_characterization ⟨keyA, metaA, "x".data, true⟩).2.1
      [("title".data, JVal.jstr "A".data)] rfl rfl⟩⟩

/-! ### Claim C9 -/

/-- C9 counterexample: the claim says Put returns an error before any
write whenever Meta is not a valid JSON object.  Meta null refutes it: it
is not a JSON object, yet sqlite's Put succeeds with revision 0 and
appends the row. -/
theorem sqlite_put_null_meta_inserts :
    isJsonObj tdNullSkinny.meta = false ∧
    sqlitePut [] tdNullSkinny = (.ok 0, [⟨"null".data, "x".data, 0⟩]) := by
  exact ⟨rfl, by decide⟩

/-- C9 (amended): whenever Meta unmarshals into no map — invalid JSON, or
valid JSON other than an object or null — every backend's Put returns the
unmarshal error before performing any write, leaving the state unchanged.
(Meta null passes the unmarshal: bolt panics without writing, while sqlite
and flat-file proceed to write.) -/
theorem put_invalid_meta_no_write (bs : BoltState) (ss : SqlState) (fs : FlatState)
    (t : Tiddler) (h : metaUnmarshalOk t.meta = false) :
    boltPut bs t = .err .unmarshalErr bs ∧
    sqlitePut ss t = (.err .unmarshalErr, ss) ∧
    flatPut fs t = (.err .unmarshalErr, fs) := by
  have hsql : sqlitePut ss t = (.err .unmarshalErr, ss) := by
    unfold sqlitePut
    rw [h]
    rfl
  rcases hval : unmarshalJ t.meta with _ | v
  · exact ⟨by unfold boltPut; rw [hval], hsql, by unfold flatPut; rw [hval]⟩
  · unfold metaUnmarshalOk at h
    rw [hval] at h
    cases v with
    | jnull => cases h
    | jobj js => cases h
    | jbool b => exact ⟨by unfold boltPut; rw [hval], hsql, by unfold flatPut; rw [hval]⟩
    | jnum n => exact ⟨by unfold boltPut; rw [hval], hsql, by unfold flatPut; rw [hval]⟩
    | jstr str => exact ⟨by unfold boltPut; rw [hval], hsql, by unfold flatPut; rw [hval]⟩
    | jarr xs => exact ⟨by unfold boltPut; rw [hval], hsql, by unfold flatPut; rw [hval]⟩

/-- Witness for the amended C9 at the fixture with numeric Meta on fresh
stores. -/
theorem put_invalid_meta_no_write_witness :
    metaUnmarshalOk tdNum.meta = false ∧
    (boltPut boltFresh tdNum = .err .unmarshalErr boltFresh ∧
      sqlitePut [] tdNum = (.err .unmarshalErr, []) ∧
      flatPut flatFresh tdNum = (.err .unmarshalErr, flatFresh)) :=
  ⟨rfl, put_invalid_meta_no_write boltFresh [] flatFresh tdNum rfl⟩

end Widdly
